import Mathlib

/-!
# Header override: building and applying the mutation plan

A shallow embedding of `relay/channel/header_override.go`.

* Go strings are Lean `String`s (well-formed UTF-8 text); the library string
  functions the file calls (`strings.TrimSpace`, `strings.Contains`,
  `strings.ReplaceAll`, `textproto.CanonicalMIMEHeaderKey`) are embedded on the
  character list. A character outside ASCII is a run of bytes that are no header
  token bytes, so a name with one is left as it is by canonicalisation.
* A value of Go's dynamic type `any` is a `GoAny`.
* A Go map that is ranged over (`map[string]any`, `map[string]string`) is the
  list of its entries in the order the `range` loop visits them; a nil slice or
  a nil `map[string]string` is the empty list.
* `http.Header` is a finite map from keys to value lists, embedded as the
  function that gives the value list stored under a key, if any. The collection
  is an allocated map, as `http.NewRequest` makes it. The one run-time failure
  Go has here, a store into a nil map, is embedded apart: `applyHeaderOverrideRun`
  takes the header value with nil as `none` and ends in an `Outcome`.
* A Go result pair `(x, err)` is an `Except`: every error return of the file is
  `return nil, err`, which is `Except.error`.
-/

namespace HeaderOverride

/-! ## Library functions on strings -/

/-- Code points for which Go's `unicode.IsSpace` holds. -/
def isSpace (c : Char) : Bool :=
  let n := c.toNat
  (9 ≤ n && n ≤ 13) || n == 32 || n == 0x85 || n == 0xA0 || n == 0x1680 ||
    (0x2000 ≤ n && n ≤ 0x200A) || n == 0x2028 || n == 0x2029 || n == 0x202F ||
    n == 0x205F || n == 0x3000

/-- Character-list form of `strings.TrimSpace`: drop the leading and the trailing
white space. -/
def trimSpaceChars (l : List Char) : List Char :=
  ((l.dropWhile isSpace).reverse.dropWhile isSpace).reverse

/-- Go's `strings.TrimSpace`. -/
def TrimSpace (s : String) : String :=
  String.mk (trimSpaceChars s.data)

/-- Go's `textproto.validHeaderFieldByte`: the token characters of RFC 7230
(letters, digits and the punctuation ! # $ % & ' * + - . ^ _ backquote | ~). -/
def validHeaderFieldByte (c : Char) : Bool :=
  let n := c.toNat
  (48 ≤ n && n ≤ 57) || (97 ≤ n && n ≤ 122) || (65 ≤ n && n ≤ 90) ||
    n == 33 || n == 35 || n == 36 || n == 37 || n == 38 || n == 39 || n == 42 ||
    n == 43 || n == 45 || n == 46 || n == 94 || n == 95 || n == 96 || n == 124 ||
    n == 126

/-- The body of the capitalisation loop of `textproto.canonicalMIMEHeaderKey`
on one character: a lower-case letter becomes upper case when `upper` is set, an
upper-case letter becomes lower case when it is not. -/
def canonicalizeChar (upper : Bool) (c : Char) : Char :=
  if upper && decide (97 ≤ c.toNat) && decide (c.toNat ≤ 122) then Char.ofNat (c.toNat - 32)
  else if !upper && decide (65 ≤ c.toNat) && decide (c.toNat ≤ 90) then Char.ofNat (c.toNat + 32)
  else c

/-- The capitalisation loop of `textproto.canonicalMIMEHeaderKey`: upper case
for the first letter and for a letter after a dash, lower case elsewhere.
`upper` is the loop variable of the same name. -/
def canonicalizeChars : Bool → List Char → List Char
  | _, [] => []
  | upper, c :: cs =>
    canonicalizeChar upper c :: canonicalizeChars ((canonicalizeChar upper c).toNat == 45) cs

/-- Character-list form of `textproto.CanonicalMIMEHeaderKey`: a name with a
character that is no token character (a space included) is returned as it is,
any other name is capitalised. -/
def canonicalMIMEHeaderKeyChars (l : List Char) : List Char :=
  if l.all validHeaderFieldByte then canonicalizeChars true l else l

/-- Go's `textproto.CanonicalMIMEHeaderKey`. -/
def CanonicalMIMEHeaderKey (s : String) : String :=
  String.mk (canonicalMIMEHeaderKeyChars s.data)

/-- Character-list form of `strings.ReplaceAll` for a non-empty `old`: scan from
the left; where `old` starts, emit `new` and skip the `old.length` characters
of the match. `skip` counts the characters of a match still to be skipped. -/
def replaceAllChars (old new : List Char) : Nat → List Char → List Char
  | _, [] => []
  | skip + 1, _ :: cs => replaceAllChars old new skip cs
  | 0, c :: cs =>
    if old.isPrefixOf (c :: cs) then new ++ replaceAllChars old new (old.length - 1) cs
    else c :: replaceAllChars old new 0 cs

/-- Character-list form of `strings.Contains`: `sub` starts at some position. -/
def containsChars (sub : List Char) : List Char → Bool
  | [] => sub.isPrefixOf []
  | c :: cs => sub.isPrefixOf (c :: cs) || containsChars sub cs

/-- Go's `strings.Contains`. -/
def Contains (s substr : String) : Bool :=
  containsChars substr.data s.data

/-- Go's `strings.ReplaceAll`, for a non-empty `old`. -/
def ReplaceAll (s old new : String) : String :=
  String.mk (replaceAllChars old.data new.data 0 s.data)

/-! ## Data model -/

/-- A value of Go's dynamic type `any`, by dynamic type: the untyped nil, a
string, the four container types that the file's type switches name, and the
scalar types that are none of them (numbers, booleans). -/
inductive GoAny where
  | nil : GoAny
  | str (s : String) : GoAny
  | num (n : Int) : GoAny
  | bool (b : Bool) : GoAny
  | mapAny (m : List (String × GoAny)) : GoAny
  | mapStr (m : List (String × String)) : GoAny
  | listAny (l : List GoAny) : GoAny
  | listStr (l : List String) : GoAny

/-- Modelled from the spec: the error codes of package `types`, of which this
file raises the single kind `ChannelHeaderOverrideInvalid`; `other` stands for
the remaining codes of the package. -/
inductive ErrorCode where
  | ChannelHeaderOverrideInvalid : ErrorCode
  | other (code : String) : ErrorCode
deriving DecidableEq, Repr

/-- Modelled from the spec: the request context `common.RelayInfo`, of which this
file reads the raw override configuration (a `map[string]any`, `none` when the
map is nil) and the API key. -/
structure RelayInfo where
  HeadersOverride : Option (List (String × GoAny))
  ApiKey : String

/-- The struct `headerOverrideSpec`. -/
structure headerOverrideSpec where
  Override : List (String × String) := []
  Fill : List (String × String) := []
  Remove : List String := []
deriving DecidableEq, Repr

deriving instance DecidableEq for Except

/-- The type `http.Header`, a `map[string][]string`: the value list stored under
each key, `none` where the map has no entry. -/
abbrev Header := String → Option (List String)

/-- The method `Header.Get`: the first value under the canonical key, the empty
string when there is none. -/
def Header.Get (h : Header) (key : String) : String :=
  match h (CanonicalMIMEHeaderKey key) with
  | some (v :: _) => v
  | _ => ""

/-- The method `Header.Set`: the entry under the canonical key becomes the
single value. -/
def Header.Set (h : Header) (key value : String) : Header :=
  fun k => if k = CanonicalMIMEHeaderKey key then some [value] else h k

/-- The method `Header.Del`: the entry under the canonical key is deleted. -/
def Header.Del (h : Header) (key : String) : Header :=
  fun k => if k = CanonicalMIMEHeaderKey key then none else h k

/-- Go's map index `m[key]` on a `map[string]any`: the zero value (nil) when
the key is absent. -/
def mapIndex (m : List (String × GoAny)) (key : String) : GoAny :=
  (m.lookup key).getD GoAny.nil

/-- Go's map store `m[k] = v` on a `map[string]string`. -/
def mapStore : List (String × String) → String → String → List (String × String)
  | [], k, v => [(k, v)]
  | (k1, v1) :: rest, k, v =>
    if k1 = k then (k1, v) :: rest else (k1, v1) :: mapStore rest k v

/-- The token that `replaceHeaderVariables` substitutes. -/
def apiKeyToken : String := "\x7bapi_key\x7d"

/-! ## The builder -/

/-- The function `replaceHeaderVariables`. -/
def replaceHeaderVariables (value : String) (info : RelayInfo) : String :=
  if Contains value apiKeyToken then ReplaceAll value apiKeyToken info.ApiKey
  else value

/-- The loop of `parseHeaderOverrideMap` over a `map[string]any`: the first
value that is no string ends it with the error. -/
def parseAnyEntries (info : RelayInfo) :
    List (String × GoAny) → List (String × String) → Except ErrorCode (List (String × String))
  | [], result => Except.ok result
  | (k, GoAny.str s) :: rest, result =>
    parseAnyEntries info rest (mapStore result k (replaceHeaderVariables s info))
  | (_, _) :: _, _ => Except.error ErrorCode.ChannelHeaderOverrideInvalid

/-- The loop of `parseHeaderOverrideMap` over a `map[string]string`. -/
def parseStrEntries (info : RelayInfo) :
    List (String × String) → List (String × String) → List (String × String)
  | [], result => result
  | (k, v) :: rest, result =>
    parseStrEntries info rest (mapStore result k (replaceHeaderVariables v info))

/-- The function `parseHeaderOverrideMap`. -/
def parseHeaderOverrideMap (raw : GoAny) (info : RelayInfo) :
    Except ErrorCode (List (String × String)) :=
  match raw with
  | GoAny.nil => Except.ok []
  | GoAny.mapAny rawMap => parseAnyEntries info rawMap []
  | GoAny.mapStr rawMap => Except.ok (parseStrEntries info rawMap [])
  | _ => Except.error ErrorCode.ChannelHeaderOverrideInvalid

/-- The loop of `parseHeaderOverrideRemoveList` over a `[]any`. -/
def parseRemoveItems : List GoAny → List String → Except ErrorCode (List String)
  | [], result => Except.ok result
  | GoAny.str s :: rest, result => parseRemoveItems rest (result ++ [s])
  | _ :: _, _ => Except.error ErrorCode.ChannelHeaderOverrideInvalid

/-- The function `parseHeaderOverrideRemoveList`. -/
def parseHeaderOverrideRemoveList (raw : GoAny) : Except ErrorCode (List String) :=
  match raw with
  | GoAny.nil => Except.ok []
  | GoAny.listStr list => Except.ok list
  | GoAny.listAny list => parseRemoveItems list []
  | _ => Except.error ErrorCode.ChannelHeaderOverrideInvalid

/-- The type switch of `isStructuredHeaderOverride`: the dynamic types of its
first case. -/
def isRecognizedContainer : GoAny → Bool
  | GoAny.mapAny _ => true
  | GoAny.mapStr _ => true
  | GoAny.listAny _ => true
  | GoAny.listStr _ => true
  | GoAny.nil => true
  | _ => false

/-- The function `isStructuredHeaderOverride`. -/
def isStructuredHeaderOverride (raw : Option (List (String × GoAny))) : Bool :=
  match raw with
  | none => false
  | some m =>
    ["override", "fill", "remove"].any fun key =>
      match m.lookup key with
      | some value => isRecognizedContainer value
      | none => false

/-- The function `buildHeaderOverrideSpec`. -/
def buildHeaderOverrideSpec (info : RelayInfo) : Except ErrorCode headerOverrideSpec :=
  match info.HeadersOverride with
  | none => Except.ok {}
  | some [] => Except.ok {}
  | some raw =>
    if isStructuredHeaderOverride (some raw) then
      match parseHeaderOverrideMap (mapIndex raw "override") info with
      | Except.error err => Except.error err
      | Except.ok override =>
        match parseHeaderOverrideMap (mapIndex raw "fill") info with
        | Except.error err => Except.error err
        | Except.ok fill =>
          match parseHeaderOverrideRemoveList (mapIndex raw "remove") with
          | Except.error err => Except.error err
          | Except.ok remove =>
            Except.ok { Override := override, Fill := fill, Remove := remove }
    else
      match parseHeaderOverrideMap (GoAny.mapAny raw) info with
      | Except.error err => Except.error err
      | Except.ok legacyOverride => Except.ok { Override := legacyOverride }

/-! ## The applier -/

/-- One turn of the remove loop of `applyHeaderOverride`. -/
def removeStep (headers : Header) (key : String) : Header :=
  let canonical := CanonicalMIMEHeaderKey (TrimSpace key)
  if canonical = "" then headers else headers.Del canonical

/-- One turn of the fill loop of `applyHeaderOverride`. -/
def fillStep (headers : Header) (entry : String × String) : Header :=
  let canonical := CanonicalMIMEHeaderKey (TrimSpace entry.1)
  if canonical = "" then headers
  else if headers.Get canonical = "" then headers.Set canonical entry.2
  else headers

/-- One turn of the override loop of `applyHeaderOverride`. -/
def overrideStep (headers : Header) (entry : String × String) : Header :=
  let canonical := CanonicalMIMEHeaderKey (TrimSpace entry.1)
  if canonical = "" then headers else headers.Set canonical entry.2

/-- The function `applyHeaderOverride`: the collection after the call. A nil
spec is `none`. -/
def applyHeaderOverride (headers : Header) (override : Option headerOverrideSpec) : Header :=
  match override with
  | none => headers
  | some spec =>
    let afterRemove := spec.Remove.foldl removeStep headers
    let afterFill := spec.Fill.foldl fillStep afterRemove
    spec.Override.foldl overrideStep afterFill

/-! ## The applier with its run-time failure -/

/-- How a call of the applier ends: with a run-time panic, or by returning, the
header value being in the given state (`none` is the nil map). -/
inductive Outcome where
  | panic : Outcome
  | returned (headers : Option Header) : Outcome

/-- The method `Header.Get` on a header value that may be the nil map: an index
into the nil map finds nothing. -/
def getNilable (headers : Option Header) (key : String) : String :=
  match headers with
  | none => ""
  | some h => h.Get key

/-- The method `Header.Del` on a header value that may be the nil map: `delete`
on the nil map does nothing. -/
def delNilable (headers : Option Header) (key : String) : Outcome :=
  match headers with
  | none => Outcome.returned none
  | some h => Outcome.returned (some (h.Del key))

/-- The method `Header.Set` on a header value that may be the nil map: a store
into the nil map panics. -/
def setNilable (headers : Option Header) (key value : String) : Outcome :=
  match headers with
  | none => Outcome.panic
  | some h => Outcome.returned (some (h.Set key value))

/-- A `range` loop whose turns may panic: the first panic ends the call. -/
def rangeLoop {α : Type} (step : Option Header → α → Outcome) :
    List α → Option Header → Outcome
  | [], headers => Outcome.returned headers
  | a :: rest, headers =>
    match step headers a with
    | Outcome.panic => Outcome.panic
    | Outcome.returned next => rangeLoop step rest next

/-- One turn of the remove loop of `applyHeaderOverride`, on a header value that
may be the nil map. -/
def removeStepRun (headers : Option Header) (key : String) : Outcome :=
  let canonical := CanonicalMIMEHeaderKey (TrimSpace key)
  if canonical = "" then Outcome.returned headers else delNilable headers canonical

/-- One turn of the fill loop of `applyHeaderOverride`, on a header value that
may be the nil map. -/
def fillStepRun (headers : Option Header) (entry : String × String) : Outcome :=
  let canonical := CanonicalMIMEHeaderKey (TrimSpace entry.1)
  if canonical = "" then Outcome.returned headers
  else if getNilable headers canonical = "" then setNilable headers canonical entry.2
  else Outcome.returned headers

/-- One turn of the override loop of `applyHeaderOverride`, on a header value
that may be the nil map. -/
def overrideStepRun (headers : Option Header) (entry : String × String) : Outcome :=
  let canonical := CanonicalMIMEHeaderKey (TrimSpace entry.1)
  if canonical = "" then Outcome.returned headers else setNilable headers canonical entry.2

/-- The function `applyHeaderOverride` with its run-time failure: how the call
ends on a header value that may be the nil map. -/
def applyHeaderOverrideRun (headers : Option Header) (override : Option headerOverrideSpec) :
    Outcome :=
  match override with
  | none => Outcome.returned headers
  | some spec =>
    match rangeLoop removeStepRun spec.Remove headers with
    | Outcome.panic => Outcome.panic
    | Outcome.returned afterRemove =>
      match rangeLoop fillStepRun spec.Fill afterRemove with
      | Outcome.panic => Outcome.panic
      | Outcome.returned afterFill => rangeLoop overrideStepRun spec.Override afterFill

/-! ## Vocabulary of the claims -/

/-- The success flag of the type assertion `v.(string)`. -/
def isString : GoAny → Bool
  | GoAny.str _ => true
  | _ => false

/-- A section value that is absent or nil (both index to nil) or a mapping with
only string values, together with the entries it holds. -/
def IsStringMapSection (value : GoAny) (entries : List (String × String)) : Prop :=
  (value = GoAny.nil ∧ entries = []) ∨ value = GoAny.mapStr entries ∨
    value = GoAny.mapAny (entries.map fun e => (e.1, GoAny.str e.2))

/-- A `remove` value that is absent or nil or a list of strings, together with
the names it holds. -/
def IsStringListSection (value : GoAny) (names : List String) : Prop :=
  (value = GoAny.nil ∧ names = []) ∨ value = GoAny.listStr names ∨
    value = GoAny.listAny (names.map GoAny.str)

/-- The pieces written one after the other with the separator between
neighbours, on character lists. -/
def joinChars (sep : List Char) : List (List Char) → List Char
  | [] => []
  | [p] => p
  | p :: q :: rest => p ++ sep ++ joinChars sep (q :: rest)

/-- The pieces written one after the other with the separator between
neighbours: `joinWith "+" ["a", "b", "c"] = "a+b+c"`. -/
def joinWith (sep : String) (pieces : List String) : String :=
  String.mk (joinChars sep.data (pieces.map String.data))

/-- A value of the shape expected of the `override` and `fill` sections: a
string-keyed mapping, or nil. -/
def isMappingOrNil : GoAny → Bool
  | GoAny.nil => true
  | GoAny.mapAny _ => true
  | GoAny.mapStr _ => true
  | _ => false

/-- A value of the shape expected of the `remove` section: a list, or nil. -/
def isListOrNil : GoAny → Bool
  | GoAny.nil => true
  | GoAny.listAny _ => true
  | GoAny.listStr _ => true
  | _ => false


/-- The first value of an entry of the collection, as `Header.Get` reads it:
the empty string for no entry and for an entry with no value. -/
def firstValue : Option (List String) → String
  | some (v :: _) => v
  | _ => ""

/-- What a turn of the remove loop does to the entry stored under the key `k`. -/
def removeAt (k : String) (entry : Option (List String)) (name : String) :
    Option (List String) :=
  if CanonicalMIMEHeaderKey (TrimSpace name) ≠ "" ∧ k = CanonicalMIMEHeaderKey (TrimSpace name)
  then none else entry

/-- What a turn of the fill loop does to the entry stored under the key `k`. -/
def fillAt (k : String) (entry : Option (List String)) (e : String × String) :
    Option (List String) :=
  if CanonicalMIMEHeaderKey (TrimSpace e.1) ≠ "" ∧ k = CanonicalMIMEHeaderKey (TrimSpace e.1) ∧
      firstValue entry = ""
  then some [e.2] else entry

/-- What a turn of the override loop does to the entry stored under the key
`k`. -/
def overrideAt (k : String) (entry : Option (List String)) (e : String × String) :
    Option (List String) :=
  if CanonicalMIMEHeaderKey (TrimSpace e.1) ≠ "" ∧ k = CanonicalMIMEHeaderKey (TrimSpace e.1)
  then some [e.2] else entry

/-- A name that is empty or consists only of white space. -/
def isBlank (name : String) : Bool :=
  name.data.all isSpace


/-- The spec without the `Remove`, `Fill` and `Override` entries whose name is
empty or consists only of white space. -/
def dropBlankNames (spec : headerOverrideSpec) : headerOverrideSpec :=
  { Override := spec.Override.filter fun e => !isBlank e.1,
    Fill := spec.Fill.filter fun e => !isBlank e.1,
    Remove := spec.Remove.filter fun name => !isBlank name }


/-- The strict shape detection that C18 compares with: a config is structured
only when some key holds a value of its own expected shape, `override` or `fill`
a mapping or nil, `remove` a list or nil. -/
def isStructuredStrict (raw : Option (List (String × GoAny))) : Bool :=
  match raw with
  | none => false
  | some m =>
    (match m.lookup "override" with
      | some value => isMappingOrNil value
      | none => false) ||
    (match m.lookup "fill" with
      | some value => isMappingOrNil value
      | none => false) ||
    (match m.lookup "remove" with
      | some value => isListOrNil value
      | none => false)

/-- The builder that C18 compares with: `buildHeaderOverrideSpec` with the
strict shape detection in the place of `isStructuredHeaderOverride`; a config
that is not strictly structured is parsed as legacy. -/
def buildHeaderOverrideSpecStrict (info : RelayInfo) : Except ErrorCode headerOverrideSpec :=
  match info.HeadersOverride with
  | none => Except.ok {}
  | some [] => Except.ok {}
  | some raw =>
    if isStructuredStrict (some raw) then
      match parseHeaderOverrideMap (mapIndex raw "override") info with
      | Except.error err => Except.error err
      | Except.ok override =>
        match parseHeaderOverrideMap (mapIndex raw "fill") info with
        | Except.error err => Except.error err
        | Except.ok fill =>
          match parseHeaderOverrideRemoveList (mapIndex raw "remove") with
          | Except.error err => Except.error err
          | Except.ok remove =>
            Except.ok { Override := override, Fill := fill, Remove := remove }
    else
      match parseHeaderOverrideMap (GoAny.mapAny raw) info with
      | Except.error err => Except.error err
      | Except.ok legacyOverride => Except.ok { Override := legacyOverride }


/-- The string values of a section that `parseHeaderOverrideMap` parses: the
values of a `map[string]string`, the values of a `map[string]any` that are
strings. -/
def stringValues : GoAny → List String
  | GoAny.mapAny m => m.filterMap fun e =>
      match e.2 with
      | GoAny.str s => some s
      | _ => none
  | GoAny.mapStr m => m.map Prod.snd
  | _ => []

/-- The string values of the sections that `buildHeaderOverrideSpec` parses as
header maps: those of `override` and `fill` for a structured config, those of
the whole config for a legacy one. -/
def parsedStringValues (raw : Option (List (String × GoAny))) : List String :=
  match raw with
  | none => []
  | some m =>
    if isStructuredHeaderOverride (some m) then
      stringValues (mapIndex m "override") ++ stringValues (mapIndex m "fill")
    else stringValues (GoAny.mapAny m)

/-- The names of a spec: the header names of `Override`, those of `Fill`, and
the `Remove` entries. -/
def specNames (spec : headerOverrideSpec) : List String × List String × List String :=
  (spec.Override.map Prod.fst, spec.Fill.map Prod.fst, spec.Remove)


/-! ## Lemmas on the library functions -/

theorem toNat_ofNat_of_lt (n : Nat) (h : n < 55296) : (Char.ofNat n).toNat = n := by
  have hv : n.isValidChar := Or.inl h
  simp only [Char.ofNat, hv, Char.ofNatAux, Char.toNat, dite_true]
  rfl

theorem canonicalizeChar_toNat (upper : Bool) (c : Char) :
    (canonicalizeChar upper c).toNat =
      if upper = true ∧ 97 ≤ c.toNat ∧ c.toNat ≤ 122 then c.toNat - 32
      else if upper = false ∧ 65 ≤ c.toNat ∧ c.toNat ≤ 90 then c.toNat + 32
      else c.toNat := by
  unfold canonicalizeChar
  cases upper
  · by_cases h : 65 ≤ c.toNat ∧ c.toNat ≤ 90
    · have h1 : c.toNat + 32 < 55296 := by omega
      simp [h, toNat_ofNat_of_lt _ h1]
    · have h2 : ¬ (65 ≤ c.toNat ∧ c.toNat ≤ 90) := h
      simp [h2]
  · by_cases h : 97 ≤ c.toNat ∧ c.toNat ≤ 122
    · have h1 : c.toNat - 32 < 55296 := by omega
      simp [h, toNat_ofNat_of_lt _ h1]
    · have h2 : ¬ (97 ≤ c.toNat ∧ c.toNat ≤ 122) := h
      simp [h2]

theorem canonicalizeChar_of_fixed (upper : Bool) (c : Char)
    (h1 : upper = true → ¬ (97 ≤ c.toNat ∧ c.toNat ≤ 122))
    (h2 : upper = false → ¬ (65 ≤ c.toNat ∧ c.toNat ≤ 90)) :
    canonicalizeChar upper c = c := by
  unfold canonicalizeChar
  cases upper
  · have := h2 rfl
    simp only [not_and, not_le] at this
    simp
    intro h3 h4
    have := this h3
    omega
  · have := h1 rfl
    simp only [not_and, not_le] at this
    simp
    intro h3 h4
    have := this h3
    omega

theorem canonicalizeChar_idem (upper : Bool) (c : Char) :
    canonicalizeChar upper (canonicalizeChar upper c) = canonicalizeChar upper c := by
  apply canonicalizeChar_of_fixed
  · intro hu
    rw [canonicalizeChar_toNat]
    subst hu
    by_cases h : 97 ≤ c.toNat ∧ c.toNat ≤ 122
    · simp [h]; omega
    · simp [h]
  · intro hu
    rw [canonicalizeChar_toNat]
    subst hu
    by_cases h : 65 ≤ c.toNat ∧ c.toNat ≤ 90
    · simp [h]; omega
    · simp [h]

theorem validHeaderFieldByte_canonicalizeChar (upper : Bool) (c : Char)
    (h : validHeaderFieldByte c = true) : validHeaderFieldByte (canonicalizeChar upper c) = true := by
  unfold validHeaderFieldByte at h ⊢
  simp only [canonicalizeChar_toNat]
  simp only [Bool.or_eq_true, Bool.and_eq_true, decide_eq_true_eq, beq_iff_eq] at h ⊢
  split_ifs with h1 h2 <;> omega

theorem canonicalizeChars_idem (upper : Bool) (l : List Char) :
    canonicalizeChars upper (canonicalizeChars upper l) = canonicalizeChars upper l := by
  induction l generalizing upper with
  | nil => rfl
  | cons c cs ih =>
    simp only [canonicalizeChars, canonicalizeChar_idem, ih]

theorem all_valid_canonicalizeChars (upper : Bool) (l : List Char)
    (h : l.all validHeaderFieldByte = true) :
    (canonicalizeChars upper l).all validHeaderFieldByte = true := by
  induction l generalizing upper with
  | nil => rfl
  | cons c cs ih =>
    simp only [List.all_cons, Bool.and_eq_true] at h
    simp only [canonicalizeChars, List.all_cons, Bool.and_eq_true]
    exact ⟨validHeaderFieldByte_canonicalizeChar upper c h.1, ih _ h.2⟩

theorem canonicalMIMEHeaderKeyChars_idem (l : List Char) :
    canonicalMIMEHeaderKeyChars (canonicalMIMEHeaderKeyChars l) = canonicalMIMEHeaderKeyChars l := by
  unfold canonicalMIMEHeaderKeyChars
  by_cases h : l.all validHeaderFieldByte = true
  · simp only [h, if_true, all_valid_canonicalizeChars true l h, canonicalizeChars_idem]
  · rw [if_neg h, if_neg h]

/-- Canonicalising a canonical key gives the same key: the key that `Get`, `Set`
and `Del` compute from the canonical name is that name. -/
theorem CanonicalMIMEHeaderKey_idem (s : String) :
    CanonicalMIMEHeaderKey (CanonicalMIMEHeaderKey s) = CanonicalMIMEHeaderKey s := by
  simp only [CanonicalMIMEHeaderKey, canonicalMIMEHeaderKeyChars_idem]

/-! ## Lemmas on replacement -/

theorem replaceAllChars_skip (old new : List Char) (skip : Nat) (l : List Char) :
    replaceAllChars old new skip l = replaceAllChars old new 0 (l.drop skip) := by
  induction l generalizing skip with
  | nil => cases skip <;> simp [replaceAllChars]
  | cons c cs ih =>
    cases skip with
    | zero => rfl
    | succ n => simp only [replaceAllChars, List.drop_succ_cons, ih n]

theorem replaceAllChars_match (old new rest : List Char) (hold : old ≠ []) :
    replaceAllChars old new 0 (old ++ rest) = new ++ replaceAllChars old new 0 rest := by
  cases old with
  | nil => exact absurd rfl hold
  | cons c cs =>
    have hp : (c :: cs).isPrefixOf (c :: (cs ++ rest)) = true := by
      rw [List.isPrefixOf_iff_prefix]
      exact List.prefix_append (c :: cs) rest
    show replaceAllChars (c :: cs) new 0 (c :: (cs ++ rest)) = _
    rw [replaceAllChars, if_pos hp, replaceAllChars_skip]
    simp

theorem replaceAllChars_no_match (old new : List Char) (c : Char) (cs : List Char)
    (h : old.isPrefixOf (c :: cs) = false) :
    replaceAllChars old new 0 (c :: cs) = c :: replaceAllChars old new 0 cs := by
  simp [replaceAllChars, h]

theorem replaceAllChars_of_not_contains (old new l : List Char)
    (h : containsChars old l = false) : replaceAllChars old new 0 l = l := by
  induction l with
  | nil => rfl
  | cons c cs ih =>
    simp only [containsChars, Bool.or_eq_false_iff] at h
    rw [replaceAllChars_no_match old new c cs h.1, ih h.2]

/-- The token has no border: it starts in no string made of a proper non-empty
prefix of itself followed by itself. -/
theorem apiKeyToken_unbordered :
    ∀ n, n < 9 → 0 < n →
      apiKeyToken.data.isPrefixOf (apiKeyToken.data.take n ++ apiKeyToken.data) = false := by
  decide

/-- The token does not start inside a piece that does not contain it, even when
the token follows the piece. -/
theorem not_prefix_of_piece (c : Char) (cs rest : List Char)
    (h : containsChars apiKeyToken.data (c :: cs) = false) :
    apiKeyToken.data.isPrefixOf (c :: (cs ++ (apiKeyToken.data ++ rest))) = false := by
  simp only [containsChars, Bool.or_eq_false_iff] at h
  by_contra hcon
  rw [Bool.not_eq_false, List.isPrefixOf_iff_prefix, ← List.cons_append] at hcon
  have hlen : apiKeyToken.data.length = 9 := by decide
  by_cases hle : apiKeyToken.data.length ≤ (c :: cs).length
  · have hp : apiKeyToken.data <+: c :: cs :=
      List.prefix_of_prefix_length_le hcon (List.prefix_append _ _) hle
    rw [← List.isPrefixOf_iff_prefix, h.1] at hp
    cases hp
  · have hp : c :: cs <+: apiKeyToken.data :=
      List.prefix_of_prefix_length_le (List.prefix_append _ _) hcon (by omega)
    have htake : c :: cs = apiKeyToken.data.take (c :: cs).length := List.prefix_iff_eq_take.mp hp
    have hp2 : apiKeyToken.data <+: c :: cs ++ apiKeyToken.data := by
      apply List.prefix_of_prefix_length_le hcon
      · rw [← List.append_assoc]; exact List.prefix_append _ _
      · simp only [List.length_append]; omega
    rw [htake, ← List.isPrefixOf_iff_prefix,
      apiKeyToken_unbordered (c :: cs).length (by omega) (by simp)] at hp2
    cases hp2

theorem replaceAllChars_piece (new p rest : List Char)
    (h : containsChars apiKeyToken.data p = false) :
    replaceAllChars apiKeyToken.data new 0 (p ++ (apiKeyToken.data ++ rest))
      = p ++ (new ++ replaceAllChars apiKeyToken.data new 0 rest) := by
  induction p with
  | nil => exact replaceAllChars_match _ _ _ (by decide)
  | cons c cs ih =>
    have hcs : containsChars apiKeyToken.data cs = false := by
      simp only [containsChars, Bool.or_eq_false_iff] at h
      exact h.2
    rw [List.cons_append, replaceAllChars_no_match _ _ _ _ (not_prefix_of_piece c cs rest h),
      ih hcs, List.cons_append]

theorem replaceAllChars_joinChars (new : List Char) (pieces : List (List Char))
    (h : ∀ p ∈ pieces, containsChars apiKeyToken.data p = false) :
    replaceAllChars apiKeyToken.data new 0 (joinChars apiKeyToken.data pieces)
      = joinChars new pieces := by
  induction pieces with
  | nil => rfl
  | cons p rest ih =>
    cases rest with
    | nil => exact replaceAllChars_of_not_contains _ _ _ (h p (by simp))
    | cons q rest =>
      simp only [joinChars, List.append_assoc]
      rw [replaceAllChars_piece new p _ (h p (by simp)),
        ih (fun x hx => h x (List.mem_cons_of_mem _ hx))]

theorem joinChars_cons_head (sep : List Char) (c : Char) (p : List Char)
    (ps : List (List Char)) :
    joinChars sep ((c :: p) :: ps) = c :: joinChars sep (p :: ps) := by
  cases ps <;> rfl

theorem prefix_joinChars (sep p : List Char) (ps : List (List Char)) :
    p <+: joinChars sep (p :: ps) := by
  cases ps with
  | nil => exact List.prefix_refl p
  | cons q rest =>
    simp only [joinChars, List.append_assoc]
    exact List.prefix_append _ _

/-- Every string is a sequence of pieces without the token, joined by the
token. -/
theorem exists_pieces (l : List Char) :
    ∃ p ps, (∀ x ∈ p :: ps, containsChars apiKeyToken.data x = false) ∧
      l = joinChars apiKeyToken.data (p :: ps) := by
  generalize hn : l.length = n
  induction n using Nat.strong_induction_on generalizing l with
  | _ n ih =>
    cases l with
    | nil => exact ⟨[], [], by decide, rfl⟩
    | cons c cs =>
      by_cases hpre : apiKeyToken.data.isPrefixOf (c :: cs) = true
      · obtain ⟨rest, hrest⟩ := List.isPrefixOf_iff_prefix.mp hpre
        have hlen : rest.length < n := by
          have h9 : apiKeyToken.data.length = 9 := by decide
          have := congrArg List.length hrest
          rw [List.length_append, h9] at this
          omega
        obtain ⟨p, ps, hall, hjoin⟩ := ih rest.length hlen rest rfl
        refine ⟨[], p :: ps, ?_, ?_⟩
        · intro x hx
          rcases List.mem_cons.mp hx with rfl | hmem
          · decide
          · exact hall x hmem
        · rw [← hrest, hjoin]
          rfl
      · have hlen : cs.length < n := by
          rw [← hn]
          simp
        obtain ⟨p, ps, hall, hjoin⟩ := ih cs.length hlen cs rfl
        refine ⟨c :: p, ps, ?_, ?_⟩
        · intro x hx
          rcases List.mem_cons.mp hx with rfl | hmem
          · simp only [containsChars, Bool.or_eq_false_iff]
            refine ⟨?_, hall p (by simp)⟩
            by_contra hcon
            rw [Bool.not_eq_false, List.isPrefixOf_iff_prefix] at hcon
            apply hpre
            rw [List.isPrefixOf_iff_prefix, hjoin]
            exact hcon.trans ((List.prefix_cons_inj c).mpr (prefix_joinChars _ p ps))
          · exact hall x (List.mem_cons_of_mem _ hmem)
        · rw [joinChars_cons_head, ← hjoin]

/-! ## Lemmas on the applier: one key of the collection at a time -/

theorem get_canonical (h : Header) (s : String) :
    h.Get (CanonicalMIMEHeaderKey s) =
      match h (CanonicalMIMEHeaderKey s) with
      | some (v :: _) => v
      | _ => "" := by
  simp only [Header.Get, CanonicalMIMEHeaderKey_idem]

theorem removeStep_apply (h : Header) (key k : String) :
    removeStep h key k =
      if CanonicalMIMEHeaderKey (TrimSpace key) ≠ "" ∧ k = CanonicalMIMEHeaderKey (TrimSpace key)
      then none else h k := by
  unfold removeStep
  by_cases hc : CanonicalMIMEHeaderKey (TrimSpace key) = ""
  · simp [hc]
  · simp [hc, Header.Del, CanonicalMIMEHeaderKey_idem]

theorem overrideStep_apply (h : Header) (entry : String × String) (k : String) :
    overrideStep h entry k =
      if CanonicalMIMEHeaderKey (TrimSpace entry.1) ≠ "" ∧
          k = CanonicalMIMEHeaderKey (TrimSpace entry.1)
      then some [entry.2] else h k := by
  unfold overrideStep
  by_cases hc : CanonicalMIMEHeaderKey (TrimSpace entry.1) = ""
  · simp [hc]
  · simp [hc, Header.Set, CanonicalMIMEHeaderKey_idem]

theorem fillStep_apply (h : Header) (entry : String × String) (k : String) :
    fillStep h entry k =
      if CanonicalMIMEHeaderKey (TrimSpace entry.1) ≠ "" ∧
          k = CanonicalMIMEHeaderKey (TrimSpace entry.1) ∧
          h.Get (CanonicalMIMEHeaderKey (TrimSpace entry.1)) = ""
      then some [entry.2] else h k := by
  unfold fillStep
  by_cases hc : CanonicalMIMEHeaderKey (TrimSpace entry.1) = ""
  · simp [hc]
  · by_cases hg : h.Get (CanonicalMIMEHeaderKey (TrimSpace entry.1)) = ""
    · simp [hc, hg, Header.Set, CanonicalMIMEHeaderKey_idem]
    · simp [hc, hg]

theorem foldl_removeStep_other (l : List String) (h : Header) (k : String)
    (hl : ∀ r ∈ l, CanonicalMIMEHeaderKey (TrimSpace r) ≠ k) :
    l.foldl removeStep h k = h k := by
  induction l generalizing h with
  | nil => rfl
  | cons r rs ih =>
    rw [List.foldl_cons, ih _ (fun x hx => hl x (List.mem_cons_of_mem _ hx)), removeStep_apply]
    have := hl r (List.mem_cons_self _ _)
    rw [if_neg]
    intro hh
    exact this hh.2.symm

theorem foldl_fillStep_other (l : List (String × String)) (h : Header) (k : String)
    (hl : ∀ e ∈ l, CanonicalMIMEHeaderKey (TrimSpace e.1) ≠ k) :
    l.foldl fillStep h k = h k := by
  induction l generalizing h with
  | nil => rfl
  | cons e es ih =>
    rw [List.foldl_cons, ih _ (fun x hx => hl x (List.mem_cons_of_mem _ hx)), fillStep_apply]
    have := hl e (List.mem_cons_self _ _)
    rw [if_neg]
    intro hh
    exact this hh.2.1.symm

theorem foldl_overrideStep_other (l : List (String × String)) (h : Header) (k : String)
    (hl : ∀ e ∈ l, CanonicalMIMEHeaderKey (TrimSpace e.1) ≠ k) :
    l.foldl overrideStep h k = h k := by
  induction l generalizing h with
  | nil => rfl
  | cons e es ih =>
    rw [List.foldl_cons, ih _ (fun x hx => hl x (List.mem_cons_of_mem _ hx)), overrideStep_apply]
    have := hl e (List.mem_cons_self _ _)
    rw [if_neg]
    intro hh
    exact this hh.2.symm

theorem foldl_removeStep_none (l : List String) (h : Header) (k : String) (hk : h k = none) :
    l.foldl removeStep h k = none := by
  induction l generalizing h with
  | nil => exact hk
  | cons r rs ih =>
    rw [List.foldl_cons]
    apply ih
    rw [removeStep_apply]
    split_ifs
    · rfl
    · exact hk

theorem foldl_removeStep_target (l : List String) (h : Header) (r : String) (hr : r ∈ l)
    (hc : CanonicalMIMEHeaderKey (TrimSpace r) ≠ "") :
    l.foldl removeStep h (CanonicalMIMEHeaderKey (TrimSpace r)) = none := by
  induction l generalizing h with
  | nil => cases hr
  | cons x xs ih =>
    rw [List.foldl_cons]
    rcases List.mem_cons.mp hr with rfl | hmem
    · apply foldl_removeStep_none
      rw [removeStep_apply, if_pos ⟨hc, rfl⟩]
    · exact ih _ hmem

theorem foldl_fillStep_populated (l : List (String × String)) (h : Header) (k v : String)
    (vs : List String) (hk : h k = some (v :: vs)) (hv : v ≠ "") :
    l.foldl fillStep h k = h k := by
  induction l generalizing h with
  | nil => rfl
  | cons e es ih =>
    have hstep : fillStep h e k = h k := by
      rw [fillStep_apply, if_neg]
      rintro ⟨_, hkc, hget⟩
      rw [get_canonical, ← hkc, hk] at hget
      exact hv hget
    rw [List.foldl_cons, ih _ (hstep.trans hk), hstep]

/-! ## Lemmas on the builder -/

theorem parseAnyEntries_non_string (info : RelayInfo) (m : List (String × GoAny))
    (result : List (String × String)) (hbad : ∃ e ∈ m, isString e.2 = false) :
    parseAnyEntries info m result = Except.error ErrorCode.ChannelHeaderOverrideInvalid := by
  induction m generalizing result with
  | nil => obtain ⟨e, he, _⟩ := hbad; cases he
  | cons x xs ih =>
    obtain ⟨k, v⟩ := x
    cases v with
    | str s =>
      simp only [parseAnyEntries]
      apply ih
      obtain ⟨e, he, hs⟩ := hbad
      rcases List.mem_cons.mp he with rfl | hmem
      · simp [isString] at hs
      · exact ⟨e, hmem, hs⟩
    | _ => rfl

theorem parseAnyEntries_error_code (info : RelayInfo) (m : List (String × GoAny))
    (result : List (String × String)) (err : ErrorCode)
    (h : parseAnyEntries info m result = Except.error err) :
    err = ErrorCode.ChannelHeaderOverrideInvalid := by
  induction m generalizing result with
  | nil => simp [parseAnyEntries] at h
  | cons x xs ih =>
    obtain ⟨k, v⟩ := x
    cases v with
    | str s => exact ih _ (by simpa only [parseAnyEntries] using h)
    | _ => simp only [parseAnyEntries] at h; cases h; rfl

theorem parseHeaderOverrideMap_error_code (raw : GoAny) (info : RelayInfo) (err : ErrorCode)
    (h : parseHeaderOverrideMap raw info = Except.error err) :
    err = ErrorCode.ChannelHeaderOverrideInvalid := by
  cases raw with
  | mapAny m => exact parseAnyEntries_error_code info m [] err h
  | nil => simp [parseHeaderOverrideMap] at h
  | mapStr m => simp [parseHeaderOverrideMap] at h
  | _ => simp only [parseHeaderOverrideMap] at h; cases h; rfl

theorem parseRemoveItems_non_string (l : List GoAny) (result : List String)
    (hbad : ∃ x ∈ l, isString x = false) :
    parseRemoveItems l result = Except.error ErrorCode.ChannelHeaderOverrideInvalid := by
  induction l generalizing result with
  | nil => obtain ⟨e, he, _⟩ := hbad; cases he
  | cons x xs ih =>
    cases x with
    | str s =>
      simp only [parseRemoveItems]
      apply ih
      obtain ⟨e, he, hs⟩ := hbad
      rcases List.mem_cons.mp he with rfl | hmem
      · simp [isString] at hs
      · exact ⟨e, hmem, hs⟩
    | _ => rfl

theorem parseRemoveItems_error_code (l : List GoAny) (result : List String) (err : ErrorCode)
    (h : parseRemoveItems l result = Except.error err) :
    err = ErrorCode.ChannelHeaderOverrideInvalid := by
  induction l generalizing result with
  | nil => simp [parseRemoveItems] at h
  | cons x xs ih =>
    cases x with
    | str s => exact ih _ (by simpa only [parseRemoveItems] using h)
    | _ => simp only [parseRemoveItems] at h; cases h; rfl

theorem parseHeaderOverrideRemoveList_error_code (raw : GoAny) (err : ErrorCode)
    (h : parseHeaderOverrideRemoveList raw = Except.error err) :
    err = ErrorCode.ChannelHeaderOverrideInvalid := by
  cases raw with
  | listAny l => exact parseRemoveItems_error_code l [] err h
  | nil => simp [parseHeaderOverrideRemoveList] at h
  | listStr l => simp [parseHeaderOverrideRemoveList] at h
  | _ => simp only [parseHeaderOverrideRemoveList] at h; cases h; rfl

/-- The structured branch of `buildHeaderOverrideSpec`, as a function of the
three parse results. -/
theorem build_structured (info : RelayInfo) (raw : List (String × GoAny))
    (hraw : info.HeadersOverride = some raw)
    (hstruct : isStructuredHeaderOverride (some raw) = true) :
    buildHeaderOverrideSpec info =
      match parseHeaderOverrideMap (mapIndex raw "override") info with
      | Except.error err => Except.error err
      | Except.ok override =>
        match parseHeaderOverrideMap (mapIndex raw "fill") info with
        | Except.error err => Except.error err
        | Except.ok fill =>
          match parseHeaderOverrideRemoveList (mapIndex raw "remove") with
          | Except.error err => Except.error err
          | Except.ok remove =>
            Except.ok { Override := override, Fill := fill, Remove := remove } := by
  cases raw with
  | nil => simp [isStructuredHeaderOverride] at hstruct
  | cons x xs => simp only [buildHeaderOverrideSpec, hraw, hstruct, if_true]

/-- The legacy branch of `buildHeaderOverrideSpec`. -/
theorem build_legacy (info : RelayInfo) (raw : List (String × GoAny))
    (hraw : info.HeadersOverride = some raw) (hne : raw ≠ [])
    (hstruct : isStructuredHeaderOverride (some raw) = false) :
    buildHeaderOverrideSpec info =
      match parseHeaderOverrideMap (GoAny.mapAny raw) info with
      | Except.error err => Except.error err
      | Except.ok legacyOverride => Except.ok { Override := legacyOverride } := by
  cases raw with
  | nil => exact absurd rfl hne
  | cons x xs => simp only [buildHeaderOverrideSpec, hraw, hstruct]; rfl

/-- In the structured branch a failing section parse fails the build, with the
one error code. -/
theorem build_structured_error (info : RelayInfo) (raw : List (String × GoAny))
    (hraw : info.HeadersOverride = some raw)
    (hstruct : isStructuredHeaderOverride (some raw) = true)
    (hfail : (∃ err, parseHeaderOverrideMap (mapIndex raw "override") info = Except.error err) ∨
      (∃ err, parseHeaderOverrideMap (mapIndex raw "fill") info = Except.error err) ∨
      (∃ err, parseHeaderOverrideRemoveList (mapIndex raw "remove") = Except.error err)) :
    buildHeaderOverrideSpec info = Except.error ErrorCode.ChannelHeaderOverrideInvalid := by
  rw [build_structured info raw hraw hstruct]
  cases h1 : parseHeaderOverrideMap (mapIndex raw "override") info with
  | error e1 => rw [parseHeaderOverrideMap_error_code _ _ _ h1]
  | ok ov =>
    cases h2 : parseHeaderOverrideMap (mapIndex raw "fill") info with
    | error e2 => rw [parseHeaderOverrideMap_error_code _ _ _ h2]
    | ok fl =>
      cases h3 : parseHeaderOverrideRemoveList (mapIndex raw "remove") with
      | error e3 => rw [parseHeaderOverrideRemoveList_error_code _ _ h3]
      | ok rm =>
        rcases hfail with ⟨e, he⟩ | ⟨e, he⟩ | ⟨e, he⟩
        · rw [h1] at he; cases he
        · rw [h2] at he; cases he
        · rw [h3] at he; cases he

theorem mapStore_of_not_mem (result : List (String × String)) (k v : String)
    (hk : k ∉ result.map Prod.fst) : mapStore result k v = result ++ [(k, v)] := by
  induction result with
  | nil => rfl
  | cons x xs ih =>
    obtain ⟨k1, v1⟩ := x
    simp only [List.map_cons, List.mem_cons, not_or] at hk
    simp only [mapStore, if_neg (Ne.symm hk.1), ih hk.2, List.cons_append]

theorem parseStrEntries_nodup (info : RelayInfo) (l result : List (String × String))
    (hnodup : (l.map Prod.fst).Nodup)
    (hfresh : ∀ k ∈ l.map Prod.fst, k ∉ result.map Prod.fst) :
    parseStrEntries info l result =
      result ++ l.map fun e => (e.1, replaceHeaderVariables e.2 info) := by
  induction l generalizing result with
  | nil => simp [parseStrEntries]
  | cons x xs ih =>
    obtain ⟨k, v⟩ := x
    simp only [List.map_cons, List.nodup_cons] at hnodup
    have hk : k ∉ result.map Prod.fst := hfresh k (by simp)
    simp only [parseStrEntries, mapStore_of_not_mem result k _ hk]
    rw [ih _ hnodup.2]
    · simp
    · intro k2 hk2
      simp only [List.map_append, List.map_cons, List.map_nil, List.mem_append,
        List.mem_singleton, not_or]
      refine ⟨hfresh k2 (by simp [List.mem_map] at hk2 ⊢; exact Or.inr hk2), ?_⟩
      rintro rfl
      exact hnodup.1 hk2

theorem parseAnyEntries_strings (info : RelayInfo) (l result : List (String × String)) :
    parseAnyEntries info (l.map fun e => (e.1, GoAny.str e.2)) result
      = Except.ok (parseStrEntries info l result) := by
  induction l generalizing result with
  | nil => rfl
  | cons x xs ih =>
    simp only [List.map_cons, parseAnyEntries, parseStrEntries, ih]

theorem parseRemoveItems_strings (l result : List String) :
    parseRemoveItems (l.map GoAny.str) result = Except.ok (result ++ l) := by
  induction l generalizing result with
  | nil => simp [parseRemoveItems]
  | cons x xs ih =>
    simp only [List.map_cons, parseRemoveItems, ih, List.append_assoc, List.singleton_append]

/-- The result of `parseHeaderOverrideMap` on a section with only string
values: the keys verbatim, each value after substitution. -/
theorem parseHeaderOverrideMap_string_section (info : RelayInfo) (value : GoAny)
    (entries : List (String × String)) (hsec : IsStringMapSection value entries)
    (hnodup : (entries.map Prod.fst).Nodup) :
    parseHeaderOverrideMap value info
      = Except.ok (entries.map fun e => (e.1, replaceHeaderVariables e.2 info)) := by
  rcases hsec with ⟨rfl, rfl⟩ | rfl | rfl
  · rfl
  · simp only [parseHeaderOverrideMap]
    rw [parseStrEntries_nodup info entries [] hnodup (by simp)]
    simp
  · simp only [parseHeaderOverrideMap, parseAnyEntries_strings]
    rw [parseStrEntries_nodup info entries [] hnodup (by simp)]
    simp

theorem parseHeaderOverrideRemoveList_string_section (value : GoAny) (names : List String)
    (hsec : IsStringListSection value names) :
    parseHeaderOverrideRemoveList value = Except.ok names := by
  rcases hsec with ⟨rfl, rfl⟩ | rfl | rfl
  · rfl
  · rfl
  · simp only [parseHeaderOverrideRemoveList, parseRemoveItems_strings, List.nil_append]

/-! ## The applier: precedence of the three phases -/

/-- C1: Override always wins. For every header collection and every spec, and
for every entry `(name, value)` of `Override` whose trimmed, canonicalized name
is non-empty and is the canonical form of no other `Override` entry (`pre` are
the entries visited before it, `post` those visited after), after
`applyHeaderOverride` the collection holds exactly the single value `value`
under that canonical name, whatever `Remove` and `Fill` contain and whatever the
collection held before. -/
theorem override_always_wins (headers : Header) (spec : headerOverrideSpec)
    (pre post : List (String × String)) (name value : String)
    (hentry : spec.Override = pre ++ (name, value) :: post)
    (hc : CanonicalMIMEHeaderKey (TrimSpace name) ≠ "")
    (hother : ∀ e ∈ pre ++ post,
      CanonicalMIMEHeaderKey (TrimSpace e.1) ≠ CanonicalMIMEHeaderKey (TrimSpace name)) :
    applyHeaderOverride headers (some spec) (CanonicalMIMEHeaderKey (TrimSpace name))
      = some [value] := by
  simp only [applyHeaderOverride, hentry, List.foldl_append, List.foldl_cons]
  rw [foldl_overrideStep_other post _ _
    (fun e he => hother e (List.mem_append_right _ he))]
  rw [overrideStep_apply, if_pos ⟨hc, rfl⟩]

/-- C1, witness of the spec: `Remove=["X-Foo"]`, `Fill={X-Foo: "f"}`,
`Override={X-Foo: "o"}` on a collection with `X-Foo: existing` leaves
`X-Foo = "o"`. -/
theorem override_always_wins_witness :
    applyHeaderOverride (fun k => if k = "X-Foo" then some ["existing"] else none)
      (some { Remove := ["X-Foo"], Fill := [("X-Foo", "f")], Override := [("X-Foo", "o")] })
      (CanonicalMIMEHeaderKey (TrimSpace "X-Foo")) = some ["o"] ∧
    CanonicalMIMEHeaderKey (TrimSpace "X-Foo") = "X-Foo" :=
  ⟨override_always_wins _ _ [] [] "X-Foo" "o" rfl (by decide) (by simp), by decide⟩

/-- C2: Fill only if absent. For every header collection and every spec, and
for every `Fill` entry `(name, f)` whose trimmed, canonicalized name `c` is
non-empty, is the canonical form of no other `Fill` entry, and is targeted by no
`Remove` name and no `Override` name: if the first value under `c` (what
`Header.Get` returns) is non-empty before `applyHeaderOverride`, the entry under
`c` is unchanged afterwards; if `c` is absent or its first value is the empty
string, the collection holds exactly the single value `f` under `c`
afterwards. -/
theorem fill_only_if_absent (headers : Header) (spec : headerOverrideSpec)
    (pre post : List (String × String)) (name f : String)
    (hentry : spec.Fill = pre ++ (name, f) :: post)
    (hc : CanonicalMIMEHeaderKey (TrimSpace name) ≠ "")
    (hother : ∀ e ∈ pre ++ post,
      CanonicalMIMEHeaderKey (TrimSpace e.1) ≠ CanonicalMIMEHeaderKey (TrimSpace name))
    (hremove : ∀ r ∈ spec.Remove,
      CanonicalMIMEHeaderKey (TrimSpace r) ≠ CanonicalMIMEHeaderKey (TrimSpace name))
    (hoverride : ∀ e ∈ spec.Override,
      CanonicalMIMEHeaderKey (TrimSpace e.1) ≠ CanonicalMIMEHeaderKey (TrimSpace name)) :
    (headers.Get (CanonicalMIMEHeaderKey (TrimSpace name)) ≠ "" →
      applyHeaderOverride headers (some spec) (CanonicalMIMEHeaderKey (TrimSpace name))
        = headers (CanonicalMIMEHeaderKey (TrimSpace name))) ∧
    (headers.Get (CanonicalMIMEHeaderKey (TrimSpace name)) = "" →
      applyHeaderOverride headers (some spec) (CanonicalMIMEHeaderKey (TrimSpace name))
        = some [f]) := by
  have hget : (List.foldl fillStep (List.foldl removeStep headers spec.Remove) pre).Get
      (CanonicalMIMEHeaderKey (TrimSpace name))
      = headers.Get (CanonicalMIMEHeaderKey (TrimSpace name)) := by
    rw [get_canonical, get_canonical,
      foldl_fillStep_other pre _ _ (fun e he => hother e (List.mem_append_left _ he)),
      foldl_removeStep_other _ _ _ hremove]
  have hrun : applyHeaderOverride headers (some spec) (CanonicalMIMEHeaderKey (TrimSpace name))
      = fillStep (List.foldl fillStep (List.foldl removeStep headers spec.Remove) pre) (name, f)
          (CanonicalMIMEHeaderKey (TrimSpace name)) := by
    simp only [applyHeaderOverride, hentry, List.foldl_append, List.foldl_cons]
    rw [foldl_overrideStep_other _ _ _ hoverride,
      foldl_fillStep_other post _ _ (fun e he => hother e (List.mem_append_right _ he))]
  rw [hrun, fillStep_apply, hget]
  constructor
  · intro hne
    rw [if_neg (fun hh => hne hh.2.2),
      foldl_fillStep_other pre _ _ (fun e he => hother e (List.mem_append_left _ he)),
      foldl_removeStep_other _ _ _ hremove]
  · intro heq
    rw [if_pos ⟨hc, rfl, heq⟩]

/-- C2, witness of the spec: `Fill={X-Bar: "f"}` on `X-Bar: existing` keeps
`"existing"`; on a collection without `X-Bar` it gives `"f"`. -/
theorem fill_only_if_absent_witness :
    applyHeaderOverride (fun k => if k = "X-Bar" then some ["existing"] else none)
      (some { Fill := [("X-Bar", "f")] }) (CanonicalMIMEHeaderKey (TrimSpace "X-Bar"))
      = some ["existing"] ∧
    applyHeaderOverride (fun _ => none)
      (some { Fill := [("X-Bar", "f")] }) (CanonicalMIMEHeaderKey (TrimSpace "X-Bar"))
      = some ["f"] ∧
    CanonicalMIMEHeaderKey (TrimSpace "X-Bar") = "X-Bar" :=
  ⟨(fill_only_if_absent (fun k => if k = "X-Bar" then some ["existing"] else none)
      { Fill := [("X-Bar", "f")] } [] [] "X-Bar" "f" rfl (by decide) (by simp) (by simp)
      (by simp)).1 (by decide),
   (fill_only_if_absent (fun _ => none)
      { Fill := [("X-Bar", "f")] } [] [] "X-Bar" "f" rfl (by decide) (by simp) (by simp)
      (by simp)).2 (by decide),
   by decide⟩

/-- C3, as stated, fails: with `Remove=["X-Foo"]`, `Fill={X-Foo: "f"}` and no
`Override`, the header `X-Foo: existing` is held with a non-empty value, is
targeted by a `Fill` entry and by no `Override` entry, and yet holds `"f"` after
`applyHeaderOverride`: the remove phase deleted it and the fill phase then found
it absent. -/
theorem fill_never_clobbers_counterexample :
    (fun k => if k = "X-Foo" then some ["existing"] else none : Header) "X-Foo"
      = some ["existing"] ∧
    "existing" ≠ "" ∧
    (∃ e ∈ ({ Remove := ["X-Foo"], Fill := [("X-Foo", "f")] } : headerOverrideSpec).Fill,
      CanonicalMIMEHeaderKey (TrimSpace e.1) = CanonicalMIMEHeaderKey "X-Foo") ∧
    (∀ e ∈ ({ Remove := ["X-Foo"], Fill := [("X-Foo", "f")] } : headerOverrideSpec).Override,
      CanonicalMIMEHeaderKey (TrimSpace e.1) ≠ CanonicalMIMEHeaderKey "X-Foo") ∧
    applyHeaderOverride (fun k => if k = "X-Foo" then some ["existing"] else none)
      (some { Remove := ["X-Foo"], Fill := [("X-Foo", "f")] }) "X-Foo" = some ["f"] ∧
    applyHeaderOverride (fun k => if k = "X-Foo" then some ["existing"] else none)
      (some { Remove := ["X-Foo"], Fill := [("X-Foo", "f")] }) "X-Foo"
      ≠ (fun k => if k = "X-Foo" then some ["existing"] else none : Header) "X-Foo" := by
  refine ⟨by decide, by decide, ⟨("X-Foo", "f"), by simp, by decide⟩, by simp, by decide,
    by decide⟩

/-- C3, amended: Fill never clobbers a populated header that Remove does not
target. For every header collection and every spec, a header `k` that the
collection holds with a non-empty first value before `applyHeaderOverride`, and
whose canonical name is targeted by a `Fill` entry but by no `Override` entry
and by no `Remove` name, has the same entry after `applyHeaderOverride`. -/
theorem fill_never_clobbers (headers : Header) (spec : headerOverrideSpec)
    (k v : String) (vs : List String)
    (hheld : headers k = some (v :: vs)) (hv : v ≠ "")
    (_hfill : ∃ e ∈ spec.Fill,
      CanonicalMIMEHeaderKey (TrimSpace e.1) = CanonicalMIMEHeaderKey k)
    (hoverride : ∀ e ∈ spec.Override,
      CanonicalMIMEHeaderKey (TrimSpace e.1) ≠ CanonicalMIMEHeaderKey k)
    (hremove : ∀ r ∈ spec.Remove,
      CanonicalMIMEHeaderKey (TrimSpace r) ≠ CanonicalMIMEHeaderKey k) :
    applyHeaderOverride headers (some spec) k = headers k := by
  have hfix : ∀ s : String, CanonicalMIMEHeaderKey (TrimSpace s) ≠ CanonicalMIMEHeaderKey k →
      CanonicalMIMEHeaderKey (TrimSpace s) ≠ k := by
    intro s hs heq
    apply hs
    rw [← heq, CanonicalMIMEHeaderKey_idem]
  have hrem : List.foldl removeStep headers spec.Remove k = headers k :=
    foldl_removeStep_other _ _ _ (fun r hr => hfix r (hremove r hr))
  simp only [applyHeaderOverride]
  rw [foldl_overrideStep_other _ _ _ (fun e he => hfix e.1 (hoverride e he)),
    foldl_fillStep_populated _ _ k v vs (hrem.trans hheld) hv, hrem]

/-- C3, amended, at a concrete input: `Fill={x-bar: "f"}` on `X-Bar: existing`
keeps the entry. -/
theorem fill_never_clobbers_witness :
    applyHeaderOverride (fun k => if k = "X-Bar" then some ["existing"] else none)
      (some { Fill := [("x-bar", "f")] }) "X-Bar" = some ["existing"] :=
  fill_never_clobbers (fun k => if k = "X-Bar" then some ["existing"] else none)
    { Fill := [("x-bar", "f")] } "X-Bar" "existing" [] (by decide) (by decide)
    ⟨("x-bar", "f"), by simp, by decide⟩ (by simp) (by simp)

/-- C4: Remove without replacement. For every header collection and every spec,
and for every name in `Remove` whose trimmed, canonicalized form `c` is
non-empty and is the canonical form of no `Fill` name and no `Override` name,
the collection has no entry under `c` after `applyHeaderOverride`. -/
theorem remove_without_replacement (headers : Header) (spec : headerOverrideSpec)
    (name : String) (hname : name ∈ spec.Remove)
    (hc : CanonicalMIMEHeaderKey (TrimSpace name) ≠ "")
    (hfill : ∀ e ∈ spec.Fill,
      CanonicalMIMEHeaderKey (TrimSpace e.1) ≠ CanonicalMIMEHeaderKey (TrimSpace name))
    (hoverride : ∀ e ∈ spec.Override,
      CanonicalMIMEHeaderKey (TrimSpace e.1) ≠ CanonicalMIMEHeaderKey (TrimSpace name)) :
    applyHeaderOverride headers (some spec) (CanonicalMIMEHeaderKey (TrimSpace name)) = none := by
  simp only [applyHeaderOverride]
  rw [foldl_overrideStep_other _ _ _ hoverride, foldl_fillStep_other _ _ _ hfill,
    foldl_removeStep_target _ _ _ hname hc]

/-- C4, witness of the spec: `Remove=["X-Baz"]` with empty `Fill` and `Override`
on `X-Baz: v` leaves `X-Baz` absent. -/
theorem remove_without_replacement_witness :
    applyHeaderOverride (fun k => if k = "X-Baz" then some ["v"] else none)
      (some { Remove := ["X-Baz"] }) (CanonicalMIMEHeaderKey (TrimSpace "X-Baz")) = none ∧
    CanonicalMIMEHeaderKey (TrimSpace "X-Baz") = "X-Baz" :=
  ⟨remove_without_replacement (fun k => if k = "X-Baz" then some ["v"] else none)
    { Remove := ["X-Baz"] } "X-Baz" (by simp) (by decide) (by simp) (by simp), by decide⟩

/-- C5: Emptiness. `buildHeaderOverrideSpec` on an absent (nil) or empty
`HeadersOverride` returns, with no error, a spec whose `Override`, `Fill` and
`Remove` are all empty, for every API key; and `applyHeaderOverride` with that
spec, and likewise with a nil spec, leaves every header collection unchanged. -/
theorem emptiness (apiKey : String) (headers : Header) :
    buildHeaderOverrideSpec { HeadersOverride := none, ApiKey := apiKey }
      = Except.ok { Override := [], Fill := [], Remove := [] } ∧
    buildHeaderOverrideSpec { HeadersOverride := some [], ApiKey := apiKey }
      = Except.ok { Override := [], Fill := [], Remove := [] } ∧
    applyHeaderOverride headers (some { Override := [], Fill := [], Remove := [] }) = headers ∧
    applyHeaderOverride headers none = headers :=
  ⟨rfl, rfl, rfl, rfl⟩

/-! ## The builder: rejected configurations -/

/-- C6: a non-string map value is rejected with no partial spec. For every raw
config and API key, if the mapping that `buildHeaderOverrideSpec` parses as a
header map (the `override` section or the `fill` section of a config classified
as structured, or the whole config when it is classified as legacy) contains at
least one value that is not a string, `buildHeaderOverrideSpec` returns the error
`ChannelHeaderOverrideInvalid` and no spec, whatever the other entries and
sections are. -/
theorem non_string_map_value_rejected (info : RelayInfo) (raw : List (String × GoAny))
    (hraw : info.HeadersOverride = some raw)
    (hbad :
      (isStructuredHeaderOverride (some raw) = true ∧
        ∃ m, (mapIndex raw "override" = GoAny.mapAny m ∨ mapIndex raw "fill" = GoAny.mapAny m) ∧
          ∃ e ∈ m, isString e.2 = false) ∨
      (isStructuredHeaderOverride (some raw) = false ∧ ∃ e ∈ raw, isString e.2 = false)) :
    buildHeaderOverrideSpec info = Except.error ErrorCode.ChannelHeaderOverrideInvalid := by
  rcases hbad with ⟨hstruct, m, hsec, hm⟩ | ⟨hlegacy, e, he, hs⟩
  · apply build_structured_error info raw hraw hstruct
    rcases hsec with hov | hfl
    · left
      exact ⟨_, by rw [hov]; exact parseAnyEntries_non_string info m [] hm⟩
    · right; left
      exact ⟨_, by rw [hfl]; exact parseAnyEntries_non_string info m [] hm⟩
  · rw [build_legacy info raw hraw (List.ne_nil_of_mem he) hlegacy]
    have : parseHeaderOverrideMap (GoAny.mapAny raw) info
        = Except.error ErrorCode.ChannelHeaderOverrideInvalid :=
      parseAnyEntries_non_string info raw [] ⟨e, he, hs⟩
    rw [this]

/-- C6, witness of the spec: `{"override": {"X-Foo": 123}}` is rejected. -/
theorem non_string_map_value_rejected_witness :
    buildHeaderOverrideSpec
        { HeadersOverride := some [("override", GoAny.mapAny [("X-Foo", GoAny.num 123)])],
          ApiKey := "sk-123" }
      = Except.error ErrorCode.ChannelHeaderOverrideInvalid :=
  non_string_map_value_rejected _ [("override", GoAny.mapAny [("X-Foo", GoAny.num 123)])] rfl
    (Or.inl ⟨by decide, [("X-Foo", GoAny.num 123)], Or.inl rfl,
      ("X-Foo", GoAny.num 123), by simp, rfl⟩)

/-- C7: a non-string remove element is rejected with no partial spec. For every
raw config whose `remove` value is a list containing at least one element that
is not a string, `buildHeaderOverrideSpec` returns the error
`ChannelHeaderOverrideInvalid` and no spec, whatever the `override` and `fill`
sections are. -/
theorem non_string_remove_element_rejected (info : RelayInfo) (raw : List (String × GoAny))
    (l : List GoAny)
    (hraw : info.HeadersOverride = some raw)
    (hremove : mapIndex raw "remove" = GoAny.listAny l)
    (hbad : ∃ x ∈ l, isString x = false) :
    buildHeaderOverrideSpec info = Except.error ErrorCode.ChannelHeaderOverrideInvalid := by
  have hlookup : raw.lookup "remove" = some (GoAny.listAny l) := by
    unfold mapIndex at hremove
    cases hl : raw.lookup "remove" with
    | none => rw [hl] at hremove; cases hremove
    | some v => rw [hl] at hremove; exact congrArg some hremove
  have hstruct : isStructuredHeaderOverride (some raw) = true := by
    simp [isStructuredHeaderOverride, hlookup, isRecognizedContainer]
  apply build_structured_error info raw hraw hstruct
  right; right
  exact ⟨_, by rw [hremove]; exact parseRemoveItems_non_string l [] hbad⟩

/-- C7, witness of the spec: `{"remove": ["X-Foo", 123]}` is rejected. -/
theorem non_string_remove_element_rejected_witness :
    buildHeaderOverrideSpec
        { HeadersOverride := some [("remove", GoAny.listAny [GoAny.str "X-Foo", GoAny.num 123])],
          ApiKey := "sk-123" }
      = Except.error ErrorCode.ChannelHeaderOverrideInvalid :=
  non_string_remove_element_rejected _
    [("remove", GoAny.listAny [GoAny.str "X-Foo", GoAny.num 123])]
    [GoAny.str "X-Foo", GoAny.num 123] rfl rfl ⟨GoAny.num 123, by simp, rfl⟩

/-! ## The builder: accepted configurations -/

/-- C8: structured parse. For every raw config classified as structured in which
`override` and `fill` are each absent, nil or a mapping with only string values
(`ov` and `fl` are their entries, with distinct keys as in every Go map), and
`remove` is absent, nil or a list of strings (`rm`), `buildHeaderOverrideSpec`
succeeds and returns a spec where `Override` (resp. `Fill`) has exactly the keys
of the `override` (resp. `fill`) section, verbatim, each mapped to that section's
value after `{api_key}` substitution (the value with every occurrence of the
token replaced by the API key), and `Remove` is the `remove` list with the same
elements in the same order and no substitution. -/
theorem structured_parse (info : RelayInfo) (raw : List (String × GoAny))
    (ov fl : List (String × String)) (rm : List String)
    (hraw : info.HeadersOverride = some raw)
    (hstruct : isStructuredHeaderOverride (some raw) = true)
    (hov : IsStringMapSection (mapIndex raw "override") ov)
    (hfl : IsStringMapSection (mapIndex raw "fill") fl)
    (hrm : IsStringListSection (mapIndex raw "remove") rm)
    (hovKeys : (ov.map Prod.fst).Nodup) (hflKeys : (fl.map Prod.fst).Nodup) :
    buildHeaderOverrideSpec info = Except.ok
      { Override := ov.map fun e => (e.1, ReplaceAll e.2 apiKeyToken info.ApiKey),
        Fill := fl.map fun e => (e.1, ReplaceAll e.2 apiKeyToken info.ApiKey),
        Remove := rm } := by
  have hsubst : ∀ entries : List (String × String),
      (entries.map fun e => (e.1, replaceHeaderVariables e.2 info))
        = entries.map fun e => (e.1, ReplaceAll e.2 apiKeyToken info.ApiKey) := by
    intro entries
    apply List.map_congr_left
    intro e _
    unfold replaceHeaderVariables
    split_ifs with hcontains
    · rfl
    · have hsame := replaceAllChars_of_not_contains apiKeyToken.data info.ApiKey.data
        e.2.data (by simpa [Contains] using hcontains)
      simp only [ReplaceAll, hsame]
  rw [build_structured info raw hraw hstruct,
    parseHeaderOverrideMap_string_section info _ ov hov hovKeys,
    parseHeaderOverrideMap_string_section info _ fl hfl hflKeys,
    parseHeaderOverrideRemoveList_string_section _ rm hrm, hsubst ov, hsubst fl]

/-- C8 at concrete inputs. With the API key `"sk-123"`, the config
`{"override": {"Authorization": "Bearer {api_key}"}, "fill": {"X-Key":
"{api_key}", "X-Model": "{model}"}, "remove": ["X-{api_key}"]}` gives
`Override={Authorization: "Bearer sk-123"}`, `Fill={X-Key: "sk-123", X-Model:
"{model}"}`, `Remove=["X-{api_key}"]`, first as the theorem states it and then as the
builder computes it; and the witness of the spec,
`{"override": {"X-Foo": "bar"}}`, gives `Override={X-Foo:bar}`, `Fill={}`,
`Remove=[]`. -/
theorem structured_parse_witness :
    buildHeaderOverrideSpec
        { HeadersOverride := some
            [("override", GoAny.mapAny [("Authorization", GoAny.str "Bearer \x7bapi_key\x7d")]),
             ("fill", GoAny.mapStr [("X-Key", "\x7bapi_key\x7d"), ("X-Model", "\x7bmodel\x7d")]),
             ("remove", GoAny.listAny [GoAny.str "X-\x7bapi_key\x7d"])],
          ApiKey := "sk-123" }
      = Except.ok
        { Override := [("Authorization", ReplaceAll "Bearer \x7bapi_key\x7d" apiKeyToken "sk-123")],
          Fill := [("X-Key", ReplaceAll "\x7bapi_key\x7d" apiKeyToken "sk-123"),
            ("X-Model", ReplaceAll "\x7bmodel\x7d" apiKeyToken "sk-123")],
          Remove := ["X-\x7bapi_key\x7d"] } ∧
    buildHeaderOverrideSpec
        { HeadersOverride := some
            [("override", GoAny.mapAny [("Authorization", GoAny.str "Bearer \x7bapi_key\x7d")]),
             ("fill", GoAny.mapStr [("X-Key", "\x7bapi_key\x7d"), ("X-Model", "\x7bmodel\x7d")]),
             ("remove", GoAny.listAny [GoAny.str "X-\x7bapi_key\x7d"])],
          ApiKey := "sk-123" }
      = Except.ok
        { Override := [("Authorization", "Bearer sk-123")],
          Fill := [("X-Key", "sk-123"), ("X-Model", "\x7bmodel\x7d")],
          Remove := ["X-\x7bapi_key\x7d"] } ∧
    buildHeaderOverrideSpec
        { HeadersOverride := some [("override", GoAny.mapAny [("X-Foo", GoAny.str "bar")])],
          ApiKey := "sk-123" }
      = Except.ok { Override := [("X-Foo", "bar")], Fill := [], Remove := [] } :=
  ⟨structured_parse
      { HeadersOverride := some
          [("override", GoAny.mapAny [("Authorization", GoAny.str "Bearer \x7bapi_key\x7d")]),
           ("fill", GoAny.mapStr [("X-Key", "\x7bapi_key\x7d"), ("X-Model", "\x7bmodel\x7d")]),
           ("remove", GoAny.listAny [GoAny.str "X-\x7bapi_key\x7d"])],
        ApiKey := "sk-123" }
      [("override", GoAny.mapAny [("Authorization", GoAny.str "Bearer \x7bapi_key\x7d")]),
       ("fill", GoAny.mapStr [("X-Key", "\x7bapi_key\x7d"), ("X-Model", "\x7bmodel\x7d")]),
       ("remove", GoAny.listAny [GoAny.str "X-\x7bapi_key\x7d"])]
      [("Authorization", "Bearer \x7bapi_key\x7d")]
      [("X-Key", "\x7bapi_key\x7d"), ("X-Model", "\x7bmodel\x7d")]
      ["X-\x7bapi_key\x7d"] rfl (by decide) (Or.inr (Or.inr rfl)) (Or.inr (Or.inl rfl))
      (Or.inr (Or.inr rfl)) (by decide) (by decide),
   by decide,
   structured_parse
      { HeadersOverride := some [("override", GoAny.mapAny [("X-Foo", GoAny.str "bar")])],
        ApiKey := "sk-123" }
      [("override", GoAny.mapAny [("X-Foo", GoAny.str "bar")])] [("X-Foo", "bar")] [] [] rfl
      (by decide) (Or.inr (Or.inr rfl)) (Or.inl ⟨rfl, rfl⟩) (Or.inl ⟨rfl, rfl⟩)
      (by decide) (by decide)⟩

/-- C9: legacy parse. For every non-empty raw config that is not classified as
structured and whose values are all strings (`entries`, with distinct keys as in
every Go map), `buildHeaderOverrideSpec` succeeds and returns a spec whose
`Override` has exactly the keys of the raw config, verbatim, each mapped to the
raw value after `{api_key}` substitution (the value with every occurrence of the
token replaced by the API key), and whose `Fill` and `Remove` are empty. -/
theorem legacy_parse (info : RelayInfo) (entries : List (String × String))
    (hraw : info.HeadersOverride = some (entries.map fun e => (e.1, GoAny.str e.2)))
    (hne : entries ≠ [])
    (hlegacy :
      isStructuredHeaderOverride (some (entries.map fun e => (e.1, GoAny.str e.2))) = false)
    (hkeys : (entries.map Prod.fst).Nodup) :
    buildHeaderOverrideSpec info = Except.ok
      { Override := entries.map fun e => (e.1, ReplaceAll e.2 apiKeyToken info.ApiKey),
        Fill := [], Remove := [] } := by
  have hsubst : ∀ entries : List (String × String),
      (entries.map fun e => (e.1, replaceHeaderVariables e.2 info))
        = entries.map fun e => (e.1, ReplaceAll e.2 apiKeyToken info.ApiKey) := by
    intro entries
    apply List.map_congr_left
    intro e _
    unfold replaceHeaderVariables
    split_ifs with hcontains
    · rfl
    · have hsame := replaceAllChars_of_not_contains apiKeyToken.data info.ApiKey.data
        e.2.data (by simpa [Contains] using hcontains)
      simp only [ReplaceAll, hsame]
  rw [build_legacy info _ hraw (by simpa using hne) hlegacy,
    parseHeaderOverrideMap_string_section info _ entries (Or.inr (Or.inr rfl)) hkeys,
    hsubst entries]

/-- C9 at concrete inputs. With the API key `"sk-123"`, the config
`{"Authorization": "Bearer {api_key}", "X-{api_key}": "{api_key}:{api_key}"}`
gives `Override={Authorization: "Bearer sk-123", X-{api_key}:
"sk-123:sk-123"}`, first as the theorem states it and then as the builder
computes it; and the witness of the spec, `{"X-Foo": "bar"}`, gives
`Override={X-Foo:bar}`. -/
theorem legacy_parse_witness :
    buildHeaderOverrideSpec
        { HeadersOverride := some
            [("Authorization", GoAny.str "Bearer \x7bapi_key\x7d"),
             ("X-\x7bapi_key\x7d", GoAny.str "\x7bapi_key\x7d:\x7bapi_key\x7d")],
          ApiKey := "sk-123" }
      = Except.ok
        { Override := [("Authorization", ReplaceAll "Bearer \x7bapi_key\x7d" apiKeyToken "sk-123"),
            ("X-\x7bapi_key\x7d",
              ReplaceAll "\x7bapi_key\x7d:\x7bapi_key\x7d" apiKeyToken "sk-123")],
          Fill := [], Remove := [] } ∧
    buildHeaderOverrideSpec
        { HeadersOverride := some
            [("Authorization", GoAny.str "Bearer \x7bapi_key\x7d"),
             ("X-\x7bapi_key\x7d", GoAny.str "\x7bapi_key\x7d:\x7bapi_key\x7d")],
          ApiKey := "sk-123" }
      = Except.ok
        { Override := [("Authorization", "Bearer sk-123"), ("X-\x7bapi_key\x7d", "sk-123:sk-123")],
          Fill := [], Remove := [] } ∧
    buildHeaderOverrideSpec
        { HeadersOverride := some [("X-Foo", GoAny.str "bar")], ApiKey := "sk-123" }
      = Except.ok { Override := [("X-Foo", "bar")], Fill := [], Remove := [] } :=
  ⟨legacy_parse
      { HeadersOverride := some
          [("Authorization", GoAny.str "Bearer \x7bapi_key\x7d"),
           ("X-\x7bapi_key\x7d", GoAny.str "\x7bapi_key\x7d:\x7bapi_key\x7d")],
        ApiKey := "sk-123" }
      [("Authorization", "Bearer \x7bapi_key\x7d"),
       ("X-\x7bapi_key\x7d", "\x7bapi_key\x7d:\x7bapi_key\x7d")]
      rfl (by simp) (by decide) (by decide),
   by decide,
   legacy_parse { HeadersOverride := some [("X-Foo", GoAny.str "bar")], ApiKey := "sk-123" }
      [("X-Foo", "bar")] rfl (by simp) (by decide) (by decide)⟩

/-! ## The builder: variable substitution -/

/-- C10: variable substitution. For every value and API key,
`replaceHeaderVariables` returns the value with every occurrence of the literal
token `{api_key}` replaced by the API key: a value made of pieces without the
token, joined by the token, becomes the same pieces joined by the API key, and
every value is made so. A value that does not contain `{api_key}` is returned
unchanged, also when it contains another token such as `{model}`. -/
theorem variable_substitution (info : RelayInfo) :
    (∀ pieces : List String, (∀ p ∈ pieces, Contains p apiKeyToken = false) →
      replaceHeaderVariables (joinWith apiKeyToken pieces) info
        = joinWith info.ApiKey pieces) ∧
    (∀ value : String, ∃ pieces : List String,
      (∀ p ∈ pieces, Contains p apiKeyToken = false) ∧ value = joinWith apiKeyToken pieces) ∧
    (∀ value : String, Contains value apiKeyToken = false →
      replaceHeaderVariables value info = value) ∧
    replaceHeaderVariables "Model \x7bmodel\x7d" info = "Model \x7bmodel\x7d" := by
  refine ⟨?_, ?_, ?_, ?_⟩
  · intro pieces hpieces
    have hall : ∀ p ∈ pieces.map String.data, containsChars apiKeyToken.data p = false := by
      intro p hp
      obtain ⟨q, hq, rfl⟩ := List.mem_map.mp hp
      exact hpieces q hq
    have hrepl := replaceAllChars_joinChars info.ApiKey.data _ hall
    unfold replaceHeaderVariables
    split_ifs with hcontains
    · simp only [ReplaceAll, joinWith, hrepl]
    · have hsame := replaceAllChars_of_not_contains apiKeyToken.data info.ApiKey.data
        (joinChars apiKeyToken.data (pieces.map String.data))
        (by simpa [Contains, joinWith] using hcontains)
      simp only [joinWith]
      rw [← hrepl, hsame]
  · intro value
    obtain ⟨p, ps, hall, hjoin⟩ := exists_pieces value.data
    refine ⟨(p :: ps).map String.mk, ?_, ?_⟩
    · intro x hx
      obtain ⟨q, hq, rfl⟩ := List.mem_map.mp hx
      exact hall q hq
    · simp only [joinWith, List.map_map]
      have hid : (String.data ∘ String.mk) = (id : List Char → List Char) := rfl
      rw [hid, List.map_id, ← hjoin]
  · intro value hvalue
    simp [replaceHeaderVariables, hvalue]
  · have hno : Contains "Model \x7bmodel\x7d" apiKeyToken = false := by decide
    simp [replaceHeaderVariables, hno]

/-- C10, witness of the spec: `"Bearer {api_key}"` with the API key `"sk-123"`
becomes `"Bearer sk-123"`. -/
theorem variable_substitution_witness :
    replaceHeaderVariables "Bearer \x7bapi_key\x7d" { HeadersOverride := none, ApiKey := "sk-123" }
      = "Bearer sk-123" ∧
    joinWith apiKeyToken ["Bearer ", ""] = "Bearer \x7bapi_key\x7d" ∧
    joinWith "sk-123" ["Bearer ", ""] = "Bearer sk-123" :=
  ⟨(variable_substitution { HeadersOverride := none, ApiKey := "sk-123" }).1 ["Bearer ", ""]
    (by decide), by decide, by decide⟩

/-! ## The applier: names are read through their canonical form -/

theorem foldl_congr_of_map_eq {α β γ : Type} (f : β → α → β) (key : α → γ)
    (hf : ∀ h a b, key a = key b → f h a = f h b) (l1 l2 : List α) (h : β)
    (hmap : l1.map key = l2.map key) : l1.foldl f h = l2.foldl f h := by
  induction l1 generalizing l2 h with
  | nil =>
    cases l2 with
    | nil => rfl
    | cons b bs => simp at hmap
  | cons a as ih =>
    cases l2 with
    | nil => simp at hmap
    | cons b bs =>
      simp only [List.map_cons, List.cons.injEq] at hmap
      rw [List.foldl_cons, List.foldl_cons, hf h a b hmap.1]
      exact ih bs _ hmap.2

theorem removeStep_congr (h : Header) (a b : String)
    (hab : CanonicalMIMEHeaderKey (TrimSpace a) = CanonicalMIMEHeaderKey (TrimSpace b)) :
    removeStep h a = removeStep h b := by
  simp only [removeStep, hab]

theorem fillStep_congr (h : Header) (a b : String × String)
    (hab : (CanonicalMIMEHeaderKey (TrimSpace a.1), a.2)
      = (CanonicalMIMEHeaderKey (TrimSpace b.1), b.2)) :
    fillStep h a = fillStep h b := by
  simp only [Prod.mk.injEq] at hab
  simp only [fillStep, hab.1, hab.2]

theorem overrideStep_congr (h : Header) (a b : String × String)
    (hab : (CanonicalMIMEHeaderKey (TrimSpace a.1), a.2)
      = (CanonicalMIMEHeaderKey (TrimSpace b.1), b.2)) :
    overrideStep h a = overrideStep h b := by
  simp only [Prod.mk.injEq] at hab
  simp only [overrideStep, hab.1, hab.2]

/-- C11: name canonicalization. For every header collection and every spec,
replacing names in `Remove`, `Fill` or `Override` by other names that have the
same trimmed, canonicalized form (same positions, same values) gives the same
collection after `applyHeaderOverride`; `"x-foo"`, `" X-Foo "` and `"X-FOO"` all
have the canonical form `"X-Foo"`; and a turn of any of the three loops leaves
every entry but the one stored under the canonical name as it was. -/
theorem name_canonicalization :
    (∀ (headers : Header) (spec spec' : headerOverrideSpec),
      spec.Remove.map (fun n => CanonicalMIMEHeaderKey (TrimSpace n))
        = spec'.Remove.map (fun n => CanonicalMIMEHeaderKey (TrimSpace n)) →
      spec.Fill.map (fun e => (CanonicalMIMEHeaderKey (TrimSpace e.1), e.2))
        = spec'.Fill.map (fun e => (CanonicalMIMEHeaderKey (TrimSpace e.1), e.2)) →
      spec.Override.map (fun e => (CanonicalMIMEHeaderKey (TrimSpace e.1), e.2))
        = spec'.Override.map (fun e => (CanonicalMIMEHeaderKey (TrimSpace e.1), e.2)) →
      applyHeaderOverride headers (some spec) = applyHeaderOverride headers (some spec')) ∧
    (CanonicalMIMEHeaderKey (TrimSpace "x-foo") = "X-Foo" ∧
      CanonicalMIMEHeaderKey (TrimSpace " X-Foo ") = "X-Foo" ∧
      CanonicalMIMEHeaderKey (TrimSpace "X-FOO") = "X-Foo") ∧
    (∀ (headers : Header) (name value k : String),
      k ≠ CanonicalMIMEHeaderKey (TrimSpace name) →
      removeStep headers name k = headers k ∧
      fillStep headers (name, value) k = headers k ∧
      overrideStep headers (name, value) k = headers k) := by
  refine ⟨?_, ⟨by decide, by decide, by decide⟩, ?_⟩
  · intro headers spec spec' hremove hfill hoverride
    simp only [applyHeaderOverride]
    rw [foldl_congr_of_map_eq removeStep _ removeStep_congr _ _ headers hremove,
      foldl_congr_of_map_eq fillStep _ fillStep_congr _ _ _ hfill,
      foldl_congr_of_map_eq overrideStep _ overrideStep_congr _ _ _ hoverride]
  · intro headers name value k hk
    refine ⟨?_, ?_, ?_⟩
    · rw [removeStep_apply, if_neg (fun hh => hk hh.2)]
    · rw [fillStep_apply, if_neg (fun hh => hk hh.2.1)]
    · rw [overrideStep_apply, if_neg (fun hh => hk hh.2)]

/-- C11, witness of the spec: the names `"x-foo"`, `" X-Foo "` and `"X-FOO"` in
the three fields give the same collection as the name `"X-Foo"`. -/
theorem name_canonicalization_witness :
    applyHeaderOverride (fun k => if k = "X-Foo" then some ["existing"] else none)
        (some { Remove := ["x-foo"], Fill := [(" X-Foo ", "f")], Override := [("X-FOO", "o")] })
      = applyHeaderOverride (fun k => if k = "X-Foo" then some ["existing"] else none)
        (some { Remove := ["X-Foo"], Fill := [("X-Foo", "f")], Override := [("X-Foo", "o")] }) :=
  name_canonicalization.1 _
    { Remove := ["x-foo"], Fill := [(" X-Foo ", "f")], Override := [("X-FOO", "o")] }
    { Remove := ["X-Foo"], Fill := [("X-Foo", "f")], Override := [("X-Foo", "o")] }
    (by decide) (by decide) (by decide)


/-! ## The builder: shape detection -/

theorem isRecognizedContainer_iff (value : GoAny) :
    isRecognizedContainer value = true ↔
      (value = GoAny.nil ∨ (∃ m, value = GoAny.mapAny m) ∨ (∃ m, value = GoAny.mapStr m) ∨
        (∃ l, value = GoAny.listAny l) ∨ (∃ l, value = GoAny.listStr l)) := by
  cases value <;> simp [isRecognizedContainer]

theorem lookup_strings (entries : List (String × String)) (key : String) (value : GoAny)
    (h : (entries.map fun e => (e.1, GoAny.str e.2)).lookup key = some value) :
    ∃ s, value = GoAny.str s := by
  induction entries with
  | nil => simp at h
  | cons e es ih =>
    simp only [List.map_cons, List.lookup_cons] at h
    split at h
    · exact ⟨e.2, by cases h; rfl⟩
    · exact ih h

/-- A flat map with only string values is not classified as structured. -/
theorem isStructured_of_strings (entries : List (String × String)) :
    isStructuredHeaderOverride (some (entries.map fun e => (e.1, GoAny.str e.2))) = false := by
  have hkey : ∀ key : String,
      (match (entries.map fun e => (e.1, GoAny.str e.2)).lookup key with
        | some value => isRecognizedContainer value
        | none => false) = false := by
    intro key
    cases hl : (entries.map fun e => (e.1, GoAny.str e.2)).lookup key with
    | none => rfl
    | some value =>
      obtain ⟨s, rfl⟩ := lookup_strings entries key value hl
      rfl
  simp only [isStructuredHeaderOverride, List.any_cons, List.any_nil, hkey, Bool.or_self]

/-- C12: shape detection rule. For every raw config,
`isStructuredHeaderOverride` returns true if and only if at least one of the
keys `override`, `fill`, `remove` is present with a value that is nil, a
string-keyed mapping or a list (so a string, a number or a boolean at those keys
does not make the config structured). In particular a flat all-string map, also
one that uses the key `override`, `fill` or `remove` for a plain string value,
is not classified as structured and is built as legacy: every key, that one
included, is an ordinary entry of `Override`. -/
theorem shape_detection_rule :
    (∀ raw : Option (List (String × GoAny)),
      isStructuredHeaderOverride raw = true ↔
        ∃ m, raw = some m ∧ ∃ key ∈ ["override", "fill", "remove"], ∃ value,
          m.lookup key = some value ∧
          (value = GoAny.nil ∨ (∃ x, value = GoAny.mapAny x) ∨ (∃ x, value = GoAny.mapStr x) ∨
            (∃ x, value = GoAny.listAny x) ∨ (∃ x, value = GoAny.listStr x))) ∧
    (∀ (info : RelayInfo) (entries : List (String × String)),
      info.HeadersOverride = some (entries.map fun e => (e.1, GoAny.str e.2)) →
      entries ≠ [] → (entries.map Prod.fst).Nodup →
      isStructuredHeaderOverride info.HeadersOverride = false ∧
      buildHeaderOverrideSpec info = Except.ok
        { Override := entries.map fun e => (e.1, replaceHeaderVariables e.2 info),
          Fill := [], Remove := [] }) := by
  constructor
  · intro raw
    cases raw with
    | none => simp [isStructuredHeaderOverride]
    | some m =>
      simp only [isStructuredHeaderOverride, List.any_eq_true, Option.some.injEq,
        exists_eq_left']
      constructor
      · rintro ⟨key, hkey, hval⟩
        cases hl : m.lookup key with
        | none => rw [hl] at hval; cases hval
        | some value =>
          rw [hl] at hval
          exact ⟨key, hkey, value, hl, (isRecognizedContainer_iff value).mp hval⟩
      · rintro ⟨key, hkey, value, hl, hshape⟩
        refine ⟨key, hkey, ?_⟩
        rw [hl]
        exact (isRecognizedContainer_iff value).mpr hshape
  · intro info entries hraw hne hkeys
    have hlegacy := isStructured_of_strings entries
    refine ⟨by rw [hraw]; exact hlegacy, ?_⟩
    rw [build_legacy info _ hraw (by simpa using hne) hlegacy,
      parseHeaderOverrideMap_string_section info _ entries (Or.inr (Or.inr rfl)) hkeys]

/-- C12 at a concrete input: `{"override": "abc", "X-Foo": "bar"}` is not
structured, and `override` is an entry of `Override` like any other. -/
theorem shape_detection_rule_witness :
    isStructuredHeaderOverride
        (some [("override", GoAny.str "abc"), ("X-Foo", GoAny.str "bar")]) = false ∧
    buildHeaderOverrideSpec
        { HeadersOverride := some [("override", GoAny.str "abc"), ("X-Foo", GoAny.str "bar")],
          ApiKey := "sk-123" }
      = Except.ok
        { Override := [("override", "abc"), ("X-Foo", "bar")], Fill := [], Remove := [] } :=
  shape_detection_rule.2
    { HeadersOverride := some [("override", GoAny.str "abc"), ("X-Foo", GoAny.str "bar")],
      ApiKey := "sk-123" }
    [("override", "abc"), ("X-Foo", "bar")] rfl (by simp) (by decide)

/-- C13: an unparsable section is rejected. For every raw config classified as
structured in which a present, non-nil section has the wrong value type
(`override` or `fill` is not a string-keyed mapping, or `remove` is not a list),
`buildHeaderOverrideSpec` returns the error `ChannelHeaderOverrideInvalid` and no
spec, whatever the other sections are. -/
theorem unparsable_section_rejected (info : RelayInfo) (raw : List (String × GoAny))
    (hraw : info.HeadersOverride = some raw)
    (hstruct : isStructuredHeaderOverride (some raw) = true)
    (hbad : isMappingOrNil (mapIndex raw "override") = false ∨
      isMappingOrNil (mapIndex raw "fill") = false ∨
      isListOrNil (mapIndex raw "remove") = false) :
    buildHeaderOverrideSpec info = Except.error ErrorCode.ChannelHeaderOverrideInvalid := by
  apply build_structured_error info raw hraw hstruct
  rcases hbad with h | h | h
  · left
    cases hv : mapIndex raw "override" <;> rw [hv] at h <;>
      first
        | exact ⟨_, rfl⟩
        | (simp [isMappingOrNil] at h)
  · right; left
    cases hv : mapIndex raw "fill" <;> rw [hv] at h <;>
      first
        | exact ⟨_, rfl⟩
        | (simp [isMappingOrNil] at h)
  · right; right
    cases hv : mapIndex raw "remove" <;> rw [hv] at h <;>
      first
        | exact ⟨_, rfl⟩
        | (simp [isListOrNil] at h)

/-- C13, witnesses of the spec: `{"override": "abc", "fill": {"X-A": "y"}}` and
`{"fill": ["a"]}` are rejected. -/
theorem unparsable_section_rejected_witness :
    buildHeaderOverrideSpec
        { HeadersOverride := some [("override", GoAny.str "abc"),
            ("fill", GoAny.mapAny [("X-A", GoAny.str "y")])],
          ApiKey := "sk-123" }
      = Except.error ErrorCode.ChannelHeaderOverrideInvalid ∧
    buildHeaderOverrideSpec
        { HeadersOverride := some [("fill", GoAny.listAny [GoAny.str "a"])],
          ApiKey := "sk-123" }
      = Except.error ErrorCode.ChannelHeaderOverrideInvalid :=
  ⟨unparsable_section_rejected _
      [("override", GoAny.str "abc"), ("fill", GoAny.mapAny [("X-A", GoAny.str "y")])]
      rfl (by decide) (Or.inl (by decide)),
   unparsable_section_rejected _ [("fill", GoAny.listAny [GoAny.str "a"])]
      rfl (by decide) (Or.inr (Or.inl (by decide)))⟩


/-! ## The applier seen from one key -/

theorem removeStep_at (h : Header) (name k : String) :
    removeStep h name k = removeAt k (h k) name :=
  removeStep_apply h name k

theorem overrideStep_at (h : Header) (e : String × String) (k : String) :
    overrideStep h e k = overrideAt k (h k) e :=
  overrideStep_apply h e k

theorem fillStep_at (h : Header) (e : String × String) (k : String) :
    fillStep h e k = fillAt k (h k) e := by
  rw [fillStep_apply, fillAt]
  by_cases hk : k = CanonicalMIMEHeaderKey (TrimSpace e.1)
  · have hget : h.Get (CanonicalMIMEHeaderKey (TrimSpace e.1)) = firstValue (h k) := by
      rw [get_canonical, hk]
      rfl
    rw [hget]
  · rw [if_neg (fun hh => hk hh.2.1), if_neg (fun hh => hk hh.2.1)]

theorem foldl_removeStep_at (l : List String) (h : Header) (k : String) :
    l.foldl removeStep h k = l.foldl (removeAt k) (h k) := by
  induction l generalizing h with
  | nil => rfl
  | cons a as ih => rw [List.foldl_cons, List.foldl_cons, ih, removeStep_at]

theorem foldl_fillStep_at (l : List (String × String)) (h : Header) (k : String) :
    l.foldl fillStep h k = l.foldl (fillAt k) (h k) := by
  induction l generalizing h with
  | nil => rfl
  | cons a as ih => rw [List.foldl_cons, List.foldl_cons, ih, fillStep_at]

theorem foldl_overrideStep_at (l : List (String × String)) (h : Header) (k : String) :
    l.foldl overrideStep h k = l.foldl (overrideAt k) (h k) := by
  induction l generalizing h with
  | nil => rfl
  | cons a as ih => rw [List.foldl_cons, List.foldl_cons, ih, overrideStep_at]

theorem applyHeaderOverride_at (headers : Header) (spec : headerOverrideSpec) (k : String) :
    applyHeaderOverride headers (some spec) k =
      spec.Override.foldl (overrideAt k)
        (spec.Fill.foldl (fillAt k) (spec.Remove.foldl (removeAt k) (headers k))) := by
  simp only [applyHeaderOverride, foldl_overrideStep_at, foldl_fillStep_at, foldl_removeStep_at]

/-- Seen from one key, the remove phase either keeps every entry or deletes
every entry. -/
theorem foldl_removeAt_cases (k : String) (l : List String) :
    (∀ s, l.foldl (removeAt k) s = s) ∨ (∀ s, l.foldl (removeAt k) s = none) := by
  induction l with
  | nil => exact Or.inl fun _ => rfl
  | cons a as ih =>
    by_cases ha : CanonicalMIMEHeaderKey (TrimSpace a) ≠ "" ∧
        k = CanonicalMIMEHeaderKey (TrimSpace a)
    · right
      intro s
      rw [List.foldl_cons, removeAt, if_pos ha]
      rcases ih with hid | hnone
      · exact hid none
      · exact hnone none
    · rcases ih with hid | hnone
      · left; intro s; rw [List.foldl_cons, removeAt, if_neg ha, hid]
      · right; intro s; rw [List.foldl_cons, hnone]

/-- Seen from one key, the override phase either keeps every entry or sets
every entry to the same single value. -/
theorem foldl_overrideAt_cases (k : String) (l : List (String × String)) :
    (∀ s, l.foldl (overrideAt k) s = s) ∨ (∃ v, ∀ s, l.foldl (overrideAt k) s = some [v]) := by
  induction l with
  | nil => exact Or.inl fun _ => rfl
  | cons a as ih =>
    by_cases ha : CanonicalMIMEHeaderKey (TrimSpace a.1) ≠ "" ∧
        k = CanonicalMIMEHeaderKey (TrimSpace a.1)
    · right
      rcases ih with hid | ⟨v, hv⟩
      · exact ⟨a.2, fun s => by rw [List.foldl_cons, overrideAt, if_pos ha, hid]⟩
      · exact ⟨v, fun s => by rw [List.foldl_cons, hv]⟩
    · rcases ih with hid | ⟨v, hv⟩
      · left; intro s; rw [List.foldl_cons, overrideAt, if_neg ha, hid]
      · right; exact ⟨v, fun s => by rw [List.foldl_cons, hv]⟩

theorem foldl_fixed {α β : Type} (f : β → α → β) (l : List α) (t : β)
    (h : ∀ a ∈ l, f t a = t) : l.foldl f t = t := by
  induction l with
  | nil => rfl
  | cons a as ih =>
    rw [List.foldl_cons, h a (List.mem_cons_self _ _)]
    exact ih fun x hx => h x (List.mem_cons_of_mem _ hx)

theorem fillAt_of_populated (k : String) (s : Option (List String)) (e : String × String)
    (hs : firstValue s ≠ "") : fillAt k s e = s := by
  rw [fillAt, if_neg (fun hh => hs hh.2.2)]

theorem foldl_fillAt_of_populated (k : String) (l : List (String × String))
    (s : Option (List String)) (hs : firstValue s ≠ "") : l.foldl (fillAt k) s = s :=
  foldl_fixed _ _ _ fun e _ => fillAt_of_populated k s e hs

theorem fillAt_cases (k : String) (s : Option (List String)) (e : String × String) :
    fillAt k s e = s ∨
      (CanonicalMIMEHeaderKey (TrimSpace e.1) ≠ "" ∧ k = CanonicalMIMEHeaderKey (TrimSpace e.1) ∧
        firstValue s = "" ∧ fillAt k s e = some [e.2]) := by
  by_cases hc : CanonicalMIMEHeaderKey (TrimSpace e.1) ≠ "" ∧
      k = CanonicalMIMEHeaderKey (TrimSpace e.1) ∧ firstValue s = ""
  · right; exact ⟨hc.1, hc.2.1, hc.2.2, by rw [fillAt, if_pos hc]⟩
  · left; rw [fillAt, if_neg hc]

theorem foldl_fillAt_empty (k : String) (l : List (String × String))
    (s : Option (List String)) (hempty : firstValue (l.foldl (fillAt k) s) = "") :
    l.foldl (fillAt k) s = s ∨ l.foldl (fillAt k) s = some [""] := by
  induction l generalizing s with
  | nil => exact Or.inl rfl
  | cons e es ih =>
    rw [List.foldl_cons] at hempty ⊢
    rcases fillAt_cases k s e with hsame | ⟨_, _, _, hset⟩
    · rw [hsame] at hempty ⊢
      exact ih s hempty
    · rw [hset] at hempty ⊢
      rcases ih _ hempty with h1 | h2
      · rw [h1] at hempty
        right
        rw [h1]
        have : e.2 = "" := hempty
        rw [this]
      · exact Or.inr h2

/-- When the fill phase ends with an empty first value under `k`, every turn of
the fill loop leaves that final entry as it is. -/
theorem fillAt_final (k : String) (l : List (String × String)) (s : Option (List String))
    (hempty : firstValue (l.foldl (fillAt k) s) = "") :
    ∀ e ∈ l, fillAt k (l.foldl (fillAt k) s) e = l.foldl (fillAt k) s := by
  induction l generalizing s with
  | nil => intro e he; cases he
  | cons e0 es ih =>
    intro e he
    rw [List.foldl_cons] at hempty ⊢
    rcases List.mem_cons.mp he with rfl | hmem
    · rcases fillAt_cases k (es.foldl (fillAt k) (fillAt k s e)) e with h1 | ⟨hc, hk, _, h1⟩
      · exact h1
      · rw [h1]
        by_cases hfirst : firstValue s = ""
        · have hset : fillAt k s e = some [e.2] := by rw [fillAt, if_pos ⟨hc, hk, hfirst⟩]
          rw [hset] at hempty ⊢
          have he2 : e.2 = "" := by
            by_contra hne
            have hpop : firstValue (some [e.2]) ≠ "" := hne
            rw [foldl_fillAt_of_populated k es _ hpop] at hempty
            exact hpop hempty
          rcases foldl_fillAt_empty k es _ hempty with h2 | h2
          · exact h2.symm
          · rw [h2, he2]
        · have hsame : fillAt k s e = s := fillAt_of_populated k s e hfirst
          rw [hsame, foldl_fillAt_of_populated k es s hfirst] at hempty
          exact absurd hempty hfirst
    · exact ih _ hempty e hmem

/-- Seen from one key, the fill phase run on its own output changes nothing. -/
theorem foldl_fillAt_idem (k : String) (l : List (String × String))
    (s : Option (List String)) :
    l.foldl (fillAt k) (l.foldl (fillAt k) s) = l.foldl (fillAt k) s := by
  by_cases hempty : firstValue (l.foldl (fillAt k) s) = ""
  · exact foldl_fixed _ _ _ (fillAt_final k l s hempty)
  · exact foldl_fillAt_of_populated k l _ hempty


/-! ## The applier: idempotence -/

/-- C14: phase idempotence. For every spec (its map entries in a fixed visiting
order) and every header collection, each of the three loops of
`applyHeaderOverride` (remove, fill, override) run a second time on its own
output gives that same output; and `applyHeaderOverride` applied twice with the
same spec gives the same collection as applying it once. -/
theorem phase_idempotence (headers : Header) (spec : headerOverrideSpec) :
    spec.Remove.foldl removeStep (spec.Remove.foldl removeStep headers)
      = spec.Remove.foldl removeStep headers ∧
    spec.Fill.foldl fillStep (spec.Fill.foldl fillStep headers)
      = spec.Fill.foldl fillStep headers ∧
    spec.Override.foldl overrideStep (spec.Override.foldl overrideStep headers)
      = spec.Override.foldl overrideStep headers ∧
    applyHeaderOverride (applyHeaderOverride headers (some spec)) (some spec)
      = applyHeaderOverride headers (some spec) := by
  refine ⟨?_, ?_, ?_, ?_⟩
  · funext k
    rw [foldl_removeStep_at, foldl_removeStep_at]
    rcases foldl_removeAt_cases k spec.Remove with hid | hnone
    · rw [hid]
    · rw [hnone, hnone]
  · funext k
    rw [foldl_fillStep_at, foldl_fillStep_at, foldl_fillAt_idem]
  · funext k
    rw [foldl_overrideStep_at, foldl_overrideStep_at]
    rcases foldl_overrideAt_cases k spec.Override with hid | ⟨v, hv⟩
    · rw [hid]
    · rw [hv, hv]
  · funext k
    rw [applyHeaderOverride_at, applyHeaderOverride_at]
    rcases foldl_overrideAt_cases k spec.Override with hid | ⟨v, hv⟩
    · rw [hid, hid]
      rcases foldl_removeAt_cases k spec.Remove with hrid | hnone
      · rw [hrid, hrid, foldl_fillAt_idem]
      · rw [hnone, hnone]
    · rw [hv, hv]


/-! ## The applier: blank names and the frame -/

theorem canonical_of_blank (name : String) (h : isBlank name = true) :
    CanonicalMIMEHeaderKey (TrimSpace name) = "" := by
  have hdrop : name.data.dropWhile isSpace = [] := by
    rw [List.dropWhile_eq_nil_iff]
    exact List.all_eq_true.mp h
  have htrim : TrimSpace name = "" := by
    simp only [TrimSpace, trimSpaceChars, hdrop]
    rfl
  rw [htrim]
  rfl

theorem foldl_filter_of_skip {α β : Type} (f : β → α → β) (p : α → Bool) (l : List α) (h : β)
    (hskip : ∀ h a, p a = false → f h a = h) : (l.filter p).foldl f h = l.foldl f h := by
  induction l generalizing h with
  | nil => rfl
  | cons a as ih =>
    by_cases hp : p a = true
    · rw [List.filter_cons_of_pos hp, List.foldl_cons, List.foldl_cons, ih]
    · rw [List.filter_cons_of_neg hp, List.foldl_cons, hskip h a (by simpa using hp), ih]

theorem removeStep_of_blank (h : Header) (name : String) (hb : (!isBlank name) = false) :
    removeStep h name = h := by
  have hc := canonical_of_blank name (by simpa using hb)
  simp [removeStep, hc]

theorem fillStep_of_blank (h : Header) (e : String × String) (hb : (!isBlank e.1) = false) :
    fillStep h e = h := by
  have hc := canonical_of_blank e.1 (by simpa using hb)
  simp [fillStep, hc]

theorem overrideStep_of_blank (h : Header) (e : String × String)
    (hb : (!isBlank e.1) = false) : overrideStep h e = h := by
  have hc := canonical_of_blank e.1 (by simpa using hb)
  simp [overrideStep, hc]

/-- On an allocated map a loop never panics, and it leaves the collection that
the loop on collections gives. -/
theorem rangeLoop_allocated {α : Type} (stepRun : Option Header → α → Outcome)
    (step : Header → α → Header)
    (hstep : ∀ h a, stepRun (some h) a = Outcome.returned (some (step h a)))
    (l : List α) (h : Header) :
    rangeLoop stepRun l (some h) = Outcome.returned (some (l.foldl step h)) := by
  induction l generalizing h with
  | nil => rfl
  | cons a rest ih => simp only [rangeLoop, hstep, ih, List.foldl_cons]

theorem rangeLoop_filter_of_skip {α : Type} (stepRun : Option Header → α → Outcome)
    (p : α → Bool) (l : List α) (headers : Option Header)
    (hskip : ∀ h a, p a = false → stepRun h a = Outcome.returned h) :
    rangeLoop stepRun (l.filter p) headers = rangeLoop stepRun l headers := by
  induction l generalizing headers with
  | nil => rfl
  | cons a rest ih =>
    by_cases hp : p a = true
    · rw [List.filter_cons_of_pos hp]
      simp only [rangeLoop]
      cases stepRun headers a with
      | panic => rfl
      | returned next => exact ih next
    · rw [List.filter_cons_of_neg hp]
      simp only [rangeLoop, hskip headers a (by simpa using hp)]
      exact ih headers

theorem removeStepRun_of_blank (h : Option Header) (name : String)
    (hb : (!isBlank name) = false) : removeStepRun h name = Outcome.returned h := by
  have hc := canonical_of_blank name (by simpa using hb)
  simp [removeStepRun, hc]

theorem fillStepRun_of_blank (h : Option Header) (e : String × String)
    (hb : (!isBlank e.1) = false) : fillStepRun h e = Outcome.returned h := by
  have hc := canonical_of_blank e.1 (by simpa using hb)
  simp [fillStepRun, hc]

theorem overrideStepRun_of_blank (h : Option Header) (e : String × String)
    (hb : (!isBlank e.1) = false) : overrideStepRun h e = Outcome.returned h := by
  have hc := canonical_of_blank e.1 (by simpa using hb)
  simp [overrideStepRun, hc]

/-- The run-time failure that the embedding with `Outcome` holds: on the nil
map, which is no collection that can be mutated, a store panics, while entries
with blank names are skipped there too. -/
theorem store_into_nil_map_panics :
    applyHeaderOverrideRun none (some { Override := [("X-Foo", "o")] }) = Outcome.panic ∧
    applyHeaderOverrideRun none
        (some { Remove := ["X-Foo"], Fill := [(" ", "f")], Override := [("", "o")] })
      = Outcome.returned none :=
  ⟨rfl, rfl⟩

/-- C15: the applier cannot fail and skips empty names. On every header
collection (an allocated map) and every spec, nil included, the call of
`applyHeaderOverride` returns without a run-time panic, leaving the collection
that the embedding on collections computes; every `Remove`, `Fill` or `Override`
entry whose name is empty or consists only of white space is skipped, so the
result equals the result of applying the spec with those entries deleted (and
the call ends the same way with and without them, on the nil map too); and the
entry under the empty name is never touched, so the collection never gains an
entry whose name is the empty string. -/
theorem applier_skips_blank_names (headers : Header) (spec : headerOverrideSpec) :
    (∀ override : Option headerOverrideSpec,
      applyHeaderOverrideRun (some headers) override
        = Outcome.returned (some (applyHeaderOverride headers override))) ∧
    applyHeaderOverride headers (some spec)
      = applyHeaderOverride headers (some (dropBlankNames spec)) ∧
    (∀ override : Option headerOverrideSpec,
      applyHeaderOverride headers override "" = headers "") ∧
    (∀ value : Option Header,
      applyHeaderOverrideRun value (some spec)
        = applyHeaderOverrideRun value (some (dropBlankNames spec))) := by
  have hremove : ∀ (h : Header) (key : String),
      removeStepRun (some h) key = Outcome.returned (some (removeStep h key)) := by
    intro h key
    simp only [removeStepRun, removeStep]
    split_ifs <;> rfl
  have hfill : ∀ (h : Header) (entry : String × String),
      fillStepRun (some h) entry = Outcome.returned (some (fillStep h entry)) := by
    intro h entry
    simp only [fillStepRun, fillStep, getNilable]
    split_ifs <;> rfl
  have hoverride : ∀ (h : Header) (entry : String × String),
      overrideStepRun (some h) entry = Outcome.returned (some (overrideStep h entry)) := by
    intro h entry
    simp only [overrideStepRun, overrideStep]
    split_ifs <;> rfl
  refine ⟨?_, ?_, ?_, ?_⟩
  · intro override
    cases override with
    | none => rfl
    | some s =>
      simp only [applyHeaderOverrideRun, applyHeaderOverride,
        rangeLoop_allocated removeStepRun removeStep hremove,
        rangeLoop_allocated fillStepRun fillStep hfill,
        rangeLoop_allocated overrideStepRun overrideStep hoverride]
  · simp only [applyHeaderOverride, dropBlankNames]
    rw [foldl_filter_of_skip removeStep _ _ _ removeStep_of_blank,
      foldl_filter_of_skip fillStep _ _ _ fillStep_of_blank,
      foldl_filter_of_skip overrideStep _ _ _ overrideStep_of_blank]
  · intro override
    cases override with
    | none => rfl
    | some s =>
      rw [applyHeaderOverride_at,
        foldl_fixed (removeAt "") s.Remove _
          (fun a _ => by rw [removeAt, if_neg (fun hh => hh.1 hh.2.symm)]),
        foldl_fixed (fillAt "") s.Fill _
          (fun a _ => by rw [fillAt, if_neg (fun hh => hh.1 hh.2.1.symm)]),
        foldl_fixed (overrideAt "") s.Override _
          (fun a _ => by rw [overrideAt, if_neg (fun hh => hh.1 hh.2.symm)])]
  · intro value
    simp only [applyHeaderOverrideRun, dropBlankNames,
      rangeLoop_filter_of_skip removeStepRun _ _ _ removeStepRun_of_blank,
      rangeLoop_filter_of_skip fillStepRun _ _ _ fillStepRun_of_blank,
      rangeLoop_filter_of_skip overrideStepRun _ _ _ overrideStepRun_of_blank]

/-- C16: frame of the applier. For every spec and every header collection, every
key that is not the trimmed, canonicalized form of some name in `Remove`, `Fill`
or `Override` has the same entry (the same list of values, or none) before and
after `applyHeaderOverride`: such an entry is unchanged, and no such key is
added. -/
theorem applier_frame (headers : Header) (spec : headerOverrideSpec) (k : String)
    (hremove : ∀ name ∈ spec.Remove, CanonicalMIMEHeaderKey (TrimSpace name) ≠ k)
    (hfill : ∀ e ∈ spec.Fill, CanonicalMIMEHeaderKey (TrimSpace e.1) ≠ k)
    (hoverride : ∀ e ∈ spec.Override, CanonicalMIMEHeaderKey (TrimSpace e.1) ≠ k) :
    applyHeaderOverride headers (some spec) k = headers k := by
  simp only [applyHeaderOverride]
  rw [foldl_overrideStep_other _ _ _ hoverride, foldl_fillStep_other _ _ _ hfill,
    foldl_removeStep_other _ _ _ hremove]

/-- C16 at a concrete input: with `Remove=["X-A"]`, `Fill={X-B: "f"}`,
`Override={X-C: "o"}` the header `X-Keep: v` stays and the absent `X-None` stays
absent. -/
theorem applier_frame_witness :
    applyHeaderOverride (fun k => if k = "X-Keep" then some ["v", "w"] else none)
      (some { Remove := ["X-A"], Fill := [("X-B", "f")], Override := [("X-C", "o")] }) "X-Keep"
      = some ["v", "w"] ∧
    applyHeaderOverride (fun k => if k = "X-Keep" then some ["v", "w"] else none)
      (some { Remove := ["X-A"], Fill := [("X-B", "f")], Override := [("X-C", "o")] }) "X-None"
      = none :=
  ⟨applier_frame (fun k => if k = "X-Keep" then some ["v", "w"] else none)
      { Remove := ["X-A"], Fill := [("X-B", "f")], Override := [("X-C", "o")] } "X-Keep"
      (by decide) (by decide) (by decide),
   applier_frame (fun k => if k = "X-Keep" then some ["v", "w"] else none)
      { Remove := ["X-A"], Fill := [("X-B", "f")], Override := [("X-C", "o")] } "X-None"
      (by decide) (by decide) (by decide)⟩


/-! ## The applier: order of the map entries -/

theorem fillAt_comm (k : String) (s : Option (List String)) (a b : String × String)
    (hab : CanonicalMIMEHeaderKey (TrimSpace a.1) ≠ CanonicalMIMEHeaderKey (TrimSpace b.1)) :
    fillAt k (fillAt k s a) b = fillAt k (fillAt k s b) a := by
  by_cases hk : k = CanonicalMIMEHeaderKey (TrimSpace a.1)
  · have hb : ∀ t, fillAt k t b = t := fun t => by
      rw [fillAt, if_neg (fun hh => hab (hk.symm.trans hh.2.1))]
    rw [hb, hb]
  · have ha : ∀ t, fillAt k t a = t := fun t => by
      rw [fillAt, if_neg (fun hh => hk hh.2.1)]
    rw [ha, ha]

theorem overrideAt_comm (k : String) (s : Option (List String)) (a b : String × String)
    (hab : CanonicalMIMEHeaderKey (TrimSpace a.1) ≠ CanonicalMIMEHeaderKey (TrimSpace b.1)) :
    overrideAt k (overrideAt k s a) b = overrideAt k (overrideAt k s b) a := by
  by_cases hk : k = CanonicalMIMEHeaderKey (TrimSpace a.1)
  · have hb : ∀ t, overrideAt k t b = t := fun t => by
      rw [overrideAt, if_neg (fun hh => hab (hk.symm.trans hh.2))]
    rw [hb, hb]
  · have ha : ∀ t, overrideAt k t a = t := fun t => by
      rw [overrideAt, if_neg (fun hh => hk hh.2)]
    rw [ha, ha]

theorem fillStep_comm (h : Header) (a b : String × String)
    (hab : CanonicalMIMEHeaderKey (TrimSpace a.1) ≠ CanonicalMIMEHeaderKey (TrimSpace b.1)) :
    fillStep (fillStep h a) b = fillStep (fillStep h b) a := by
  funext k
  rw [fillStep_at, fillStep_at, fillStep_at, fillStep_at, fillAt_comm k _ a b hab]

theorem overrideStep_comm (h : Header) (a b : String × String)
    (hab : CanonicalMIMEHeaderKey (TrimSpace a.1) ≠ CanonicalMIMEHeaderKey (TrimSpace b.1)) :
    overrideStep (overrideStep h a) b = overrideStep (overrideStep h b) a := by
  funext k
  rw [overrideStep_at, overrideStep_at, overrideStep_at, overrideStep_at,
    overrideAt_comm k _ a b hab]

/-- A loop whose turns commute for entries with different canonical names gives
the same collection for every visiting order of entries that share no canonical
name. -/
theorem foldl_perm_of_distinct_names (step : Header → String × String → Header)
    (hcomm : ∀ h a b,
      CanonicalMIMEHeaderKey (TrimSpace a.1) ≠ CanonicalMIMEHeaderKey (TrimSpace b.1) →
      step (step h a) b = step (step h b) a)
    (l l' : List (String × String)) (hperm : l.Perm l')
    (hnames : (l.map fun e => CanonicalMIMEHeaderKey (TrimSpace e.1)).Nodup) (h : Header) :
    l.foldl step h = l'.foldl step h := by
  apply List.Perm.foldl_eq' hperm
  intro x hx y hy z
  by_cases hxy : CanonicalMIMEHeaderKey (TrimSpace x.1) = CanonicalMIMEHeaderKey (TrimSpace y.1)
  · have : x = y := List.inj_on_of_nodup_map hnames hx hy hxy
    rw [this]
  · exact hcomm z x y hxy

/-- C17: independence of map iteration order. For every header collection and
every spec in which no two `Fill` names share a trimmed, canonicalized form and
no two `Override` names share one, the collection produced by
`applyHeaderOverride` is the same for every order in which the entries of `Fill`
and the entries of `Override` are visited: `spec'` holds the entries of `spec`
in any other order. -/
theorem order_independence (headers : Header) (spec spec' : headerOverrideSpec)
    (hremove : spec.Remove = spec'.Remove)
    (hfill : spec.Fill.Perm spec'.Fill)
    (hoverride : spec.Override.Perm spec'.Override)
    (hfillNames : (spec.Fill.map fun e => CanonicalMIMEHeaderKey (TrimSpace e.1)).Nodup)
    (hoverrideNames :
      (spec.Override.map fun e => CanonicalMIMEHeaderKey (TrimSpace e.1)).Nodup) :
    applyHeaderOverride headers (some spec) = applyHeaderOverride headers (some spec') := by
  simp only [applyHeaderOverride]
  rw [← hremove,
    foldl_perm_of_distinct_names fillStep fillStep_comm _ _ hfill hfillNames,
    foldl_perm_of_distinct_names overrideStep overrideStep_comm _ _ hoverride hoverrideNames]

/-- C17 at a concrete input: two `Fill` entries and two `Override` entries,
visited in either order. -/
theorem order_independence_witness :
    applyHeaderOverride (fun k => if k = "X-A" then some ["a"] else none)
        (some { Fill := [("X-A", "1"), ("X-B", "2")], Override := [("X-C", "3"), ("x-d", "4")] })
      = applyHeaderOverride (fun k => if k = "X-A" then some ["a"] else none)
        (some { Fill := [("X-B", "2"), ("X-A", "1")],
                Override := [("x-d", "4"), ("X-C", "3")] }) :=
  order_independence _
    { Fill := [("X-A", "1"), ("X-B", "2")], Override := [("X-C", "3"), ("x-d", "4")] }
    { Fill := [("X-B", "2"), ("X-A", "1")], Override := [("x-d", "4"), ("X-C", "3")] }
    rfl (List.Perm.swap _ _ _) (List.Perm.swap _ _ _) (by decide) (by decide)


/-! ## The builder: lax and strict shape detection -/

theorem mem_of_lookup (m : List (String × GoAny)) (key : String) (value : GoAny)
    (h : m.lookup key = some value) : (key, value) ∈ m := by
  induction m with
  | nil => simp at h
  | cons e es ih =>
    obtain ⟨k, v⟩ := e
    simp only [List.lookup_cons] at h
    split at h
    · rename_i heq
      have hk : key = k := by simpa using heq
      cases h
      rw [hk]
      exact List.mem_cons_self _ _
    · exact List.mem_cons_of_mem _ (ih h)

theorem mapIndex_of_lookup (m : List (String × GoAny)) (key : String) (value : GoAny)
    (h : m.lookup key = some value) : mapIndex m key = value := by
  simp [mapIndex, h]

theorem parseHeaderOverrideMap_wrong_type (value : GoAny) (info : RelayInfo)
    (h : isMappingOrNil value = false) :
    ∃ err, parseHeaderOverrideMap value info = Except.error err := by
  cases value <;> first
    | exact ⟨_, rfl⟩
    | (simp [isMappingOrNil] at h)

theorem parseHeaderOverrideRemoveList_wrong_type (value : GoAny)
    (h : isListOrNil value = false) :
    ∃ err, parseHeaderOverrideRemoveList value = Except.error err := by
  cases value <;> first
    | exact ⟨_, rfl⟩
    | (simp [isListOrNil] at h)

theorem not_string_of_container (value : GoAny) (h : isRecognizedContainer value = true) :
    isString value = false := by
  cases value <;> first
    | rfl
    | (simp [isRecognizedContainer] at h)

theorem isStructured_of_strict (m : List (String × GoAny))
    (h : isStructuredStrict (some m) = true) : isStructuredHeaderOverride (some m) = true := by
  have hmap : ∀ v, isMappingOrNil v = true → isRecognizedContainer v = true := by
    intro v hv; cases v <;> first | rfl | (simp [isMappingOrNil] at hv)
  have hlist : ∀ v, isListOrNil v = true → isRecognizedContainer v = true := by
    intro v hv; cases v <;> first | rfl | (simp [isListOrNil] at hv)
  simp only [isStructuredStrict, Bool.or_eq_true] at h
  simp only [isStructuredHeaderOverride, List.any_cons, List.any_nil, Bool.or_false,
    Bool.or_eq_true]
  rcases h with (h | h) | h
  · left
    cases hl : m.lookup "override" with
    | none => rw [hl] at h; cases h
    | some v => rw [hl] at h; exact hmap v h
  · right; left
    cases hl : m.lookup "fill" with
    | none => rw [hl] at h; cases h
    | some v => rw [hl] at h; exact hmap v h
  · right; right
    cases hl : m.lookup "remove" with
    | none => rw [hl] at h; cases h
    | some v => rw [hl] at h; exact hlist v h

/-- A config that the lax detection takes as structured and the strict one does
not has a section of the wrong type, and a value that is no string. -/
theorem lax_not_strict (m : List (String × GoAny)) (info : RelayInfo)
    (hlax : isStructuredHeaderOverride (some m) = true)
    (hstrict : isStructuredStrict (some m) = false) :
    ((∃ err, parseHeaderOverrideMap (mapIndex m "override") info = Except.error err) ∨
      (∃ err, parseHeaderOverrideMap (mapIndex m "fill") info = Except.error err) ∨
      (∃ err, parseHeaderOverrideRemoveList (mapIndex m "remove") = Except.error err)) ∧
    ∃ e ∈ m, isString e.2 = false := by
  simp only [isStructuredStrict, Bool.or_eq_false_iff] at hstrict
  obtain ⟨⟨hov, hfl⟩, hrm⟩ := hstrict
  simp only [isStructuredHeaderOverride, List.any_cons, List.any_nil, Bool.or_false,
    Bool.or_eq_true] at hlax
  rcases hlax with h | h | h
  · cases hl : m.lookup "override" with
    | none => rw [hl] at h; cases h
    | some v =>
      rw [hl] at h hov
      refine ⟨Or.inl ?_, (_, v), mem_of_lookup m _ v hl, not_string_of_container v h⟩
      rw [mapIndex_of_lookup m _ v hl]
      exact parseHeaderOverrideMap_wrong_type v info hov
  · cases hl : m.lookup "fill" with
    | none => rw [hl] at h; cases h
    | some v =>
      rw [hl] at h hfl
      refine ⟨Or.inr (Or.inl ?_), (_, v), mem_of_lookup m _ v hl, not_string_of_container v h⟩
      rw [mapIndex_of_lookup m _ v hl]
      exact parseHeaderOverrideMap_wrong_type v info hfl
  · cases hl : m.lookup "remove" with
    | none => rw [hl] at h; cases h
    | some v =>
      rw [hl] at h hrm
      refine ⟨Or.inr (Or.inr ?_), (_, v), mem_of_lookup m _ v hl, not_string_of_container v h⟩
      rw [mapIndex_of_lookup m _ v hl]
      exact parseHeaderOverrideRemoveList_wrong_type v hrm

/-- C18: lax and strict shape detection build the same result. For every raw
config and API key, `buildHeaderOverrideSpec` returns the same outcome (the same
spec, or the error `ChannelHeaderOverrideInvalid`) as the builder that
classifies a config as structured only when some key holds a value of its own
expected shape and otherwise parses it as legacy. -/
theorem lax_strict_same_result (info : RelayInfo) :
    buildHeaderOverrideSpec info = buildHeaderOverrideSpecStrict info := by
  cases hraw : info.HeadersOverride with
  | none => simp only [buildHeaderOverrideSpec, buildHeaderOverrideSpecStrict, hraw]
  | some raw =>
    cases raw with
    | nil => simp only [buildHeaderOverrideSpec, buildHeaderOverrideSpecStrict, hraw]
    | cons x xs =>
      by_cases hstrict : isStructuredStrict (some (x :: xs)) = true
      · have hlax := isStructured_of_strict _ hstrict
        simp only [buildHeaderOverrideSpec, buildHeaderOverrideSpecStrict, hraw, hlax, hstrict]
      · by_cases hlax : isStructuredHeaderOverride (some (x :: xs)) = true
        · have hstrict' : isStructuredStrict (some (x :: xs)) = false := by
            simpa using hstrict
          obtain ⟨hfail, hbad⟩ := lax_not_strict (x :: xs) info hlax hstrict'
          rw [build_structured_error info _ hraw hlax hfail]
          have hlegacy : parseHeaderOverrideMap (GoAny.mapAny (x :: xs)) info
              = Except.error ErrorCode.ChannelHeaderOverrideInvalid :=
            parseAnyEntries_non_string info _ [] hbad
          simp only [buildHeaderOverrideSpecStrict, hraw, hstrict, hlegacy]
          rfl
        · simp only [buildHeaderOverrideSpec, buildHeaderOverrideSpecStrict, hraw, hlax,
            hstrict]


/-! ## The builder: what the result depends on -/

theorem replaceHeaderVariables_congr (value : String) (info info' : RelayInfo)
    (hkey : info.ApiKey = info'.ApiKey) :
    replaceHeaderVariables value info = replaceHeaderVariables value info' := by
  simp only [replaceHeaderVariables, hkey]

theorem parseAnyEntries_congr (info info' : RelayInfo) (hkey : info.ApiKey = info'.ApiKey)
    (m : List (String × GoAny)) (result : List (String × String)) :
    parseAnyEntries info m result = parseAnyEntries info' m result := by
  induction m generalizing result with
  | nil => rfl
  | cons x xs ih =>
    obtain ⟨k, v⟩ := x
    cases v with
    | str s =>
      simp only [parseAnyEntries, replaceHeaderVariables_congr s info info' hkey, ih]
    | _ => rfl

theorem parseStrEntries_congr (info info' : RelayInfo) (hkey : info.ApiKey = info'.ApiKey)
    (m result : List (String × String)) :
    parseStrEntries info m result = parseStrEntries info' m result := by
  induction m generalizing result with
  | nil => rfl
  | cons x xs ih =>
    simp only [parseStrEntries, replaceHeaderVariables_congr x.2 info info' hkey, ih]

/-- The map parser reads nothing of the request context but the API key. -/
theorem parseHeaderOverrideMap_congr (info info' : RelayInfo)
    (hkey : info.ApiKey = info'.ApiKey) (value : GoAny) :
    parseHeaderOverrideMap value info = parseHeaderOverrideMap value info' := by
  cases value with
  | mapAny m => exact parseAnyEntries_congr info info' hkey m []
  | mapStr m => simp only [parseHeaderOverrideMap, parseStrEntries_congr info info' hkey]
  | _ => rfl

/-- C19: structured configs silently drop other keys. For every raw config
classified as structured, the result of `buildHeaderOverrideSpec` depends only
on the values at the keys `override`, `fill` and `remove`: two structured
configs with the same values there (and the same API key) build the same
result, whatever other top-level entries they hold, of whatever value type. -/
theorem structured_ignores_other_keys (info info' : RelayInfo)
    (raw raw' : List (String × GoAny))
    (hraw : info.HeadersOverride = some raw) (hraw' : info'.HeadersOverride = some raw')
    (hkey : info.ApiKey = info'.ApiKey)
    (hstruct : isStructuredHeaderOverride (some raw) = true)
    (hstruct' : isStructuredHeaderOverride (some raw') = true)
    (hoverride : mapIndex raw "override" = mapIndex raw' "override")
    (hfill : mapIndex raw "fill" = mapIndex raw' "fill")
    (hremove : mapIndex raw "remove" = mapIndex raw' "remove") :
    buildHeaderOverrideSpec info = buildHeaderOverrideSpec info' := by
  rw [build_structured info raw hraw hstruct, build_structured info' raw' hraw' hstruct',
    hoverride, hfill, hremove, parseHeaderOverrideMap_congr info info' hkey,
    parseHeaderOverrideMap_congr info info' hkey]

/-- C19, witness of the spec: `{"X-Foo": 123, "remove": []}` builds as
`{"remove": []}` does, to a spec with empty `Override`, `Fill` and `Remove`. -/
theorem structured_ignores_other_keys_witness :
    buildHeaderOverrideSpec
        { HeadersOverride := some [("X-Foo", GoAny.num 123), ("remove", GoAny.listAny [])],
          ApiKey := "sk-123" }
      = buildHeaderOverrideSpec
        { HeadersOverride := some [("remove", GoAny.listAny [])], ApiKey := "sk-123" } ∧
    buildHeaderOverrideSpec
        { HeadersOverride := some [("X-Foo", GoAny.num 123), ("remove", GoAny.listAny [])],
          ApiKey := "sk-123" }
      = Except.ok { Override := [], Fill := [], Remove := [] } :=
  ⟨structured_ignores_other_keys
      { HeadersOverride := some [("X-Foo", GoAny.num 123), ("remove", GoAny.listAny [])],
        ApiKey := "sk-123" }
      { HeadersOverride := some [("remove", GoAny.listAny [])], ApiKey := "sk-123" }
      [("X-Foo", GoAny.num 123), ("remove", GoAny.listAny [])] [("remove", GoAny.listAny [])]
      rfl rfl rfl (by decide) (by decide) rfl rfl rfl,
   by decide⟩


/-! ## The builder: the API key -/

theorem mapStore_keys (result : List (String × String)) (k v : String) :
    (mapStore result k v).map Prod.fst =
      if k ∈ result.map Prod.fst then result.map Prod.fst else result.map Prod.fst ++ [k] := by
  induction result with
  | nil => simp [mapStore]
  | cons x xs ih =>
    obtain ⟨k1, v1⟩ := x
    by_cases hk : k1 = k
    · simp [mapStore, hk]
    · have hk' : ¬ k = k1 := fun h => hk h.symm
      simp only [mapStore, if_neg hk, List.map_cons, ih, List.mem_cons, hk', false_or]
      split_ifs <;> simp

theorem parseAnyEntries_names (info info' : RelayInfo) (m : List (String × GoAny))
    (result result' : List (String × String))
    (h : result.map Prod.fst = result'.map Prod.fst) :
    Except.map (List.map Prod.fst) (parseAnyEntries info m result)
      = Except.map (List.map Prod.fst) (parseAnyEntries info' m result') := by
  induction m generalizing result result' with
  | nil => simp only [parseAnyEntries, Except.map, h]
  | cons x xs ih =>
    obtain ⟨k, v⟩ := x
    cases v with
    | str s =>
      simp only [parseAnyEntries]
      apply ih
      rw [mapStore_keys, mapStore_keys, h]
    | _ => rfl

theorem parseStrEntries_names (info info' : RelayInfo) (m result result' : List (String × String))
    (h : result.map Prod.fst = result'.map Prod.fst) :
    (parseStrEntries info m result).map Prod.fst
      = (parseStrEntries info' m result').map Prod.fst := by
  induction m generalizing result result' with
  | nil => exact h
  | cons x xs ih =>
    simp only [parseStrEntries]
    apply ih
    rw [mapStore_keys, mapStore_keys, h]

theorem parseHeaderOverrideMap_names (info info' : RelayInfo) (value : GoAny) :
    Except.map (List.map Prod.fst) (parseHeaderOverrideMap value info)
      = Except.map (List.map Prod.fst) (parseHeaderOverrideMap value info') := by
  cases value with
  | mapAny m => exact parseAnyEntries_names info info' m [] [] rfl
  | mapStr m =>
    simp only [parseHeaderOverrideMap, Except.map,
      parseStrEntries_names info info' m [] [] rfl]
  | _ => rfl

theorem except_map_cases {α β : Type} (f : α → β) (r r' : Except ErrorCode α)
    (h : Except.map f r = Except.map f r') :
    (∃ err, r = Except.error err ∧ r' = Except.error err) ∨
      (∃ a a', r = Except.ok a ∧ r' = Except.ok a' ∧ f a = f a') := by
  cases r with
  | error e =>
    cases r' with
    | error e' =>
      simp only [Except.map, Except.error.injEq] at h
      exact Or.inl ⟨e, rfl, by rw [h]⟩
    | ok a' => simp [Except.map] at h
  | ok a =>
    cases r' with
    | error e' => simp [Except.map] at h
    | ok a' =>
      simp only [Except.map, Except.ok.injEq] at h
      exact Or.inr ⟨a, a', rfl, rfl, h⟩

/-- Two API keys give the same failure, or two specs with the same names. -/
theorem build_names (raw : Option (List (String × GoAny))) (key key' : String) :
    Except.map specNames (buildHeaderOverrideSpec { HeadersOverride := raw, ApiKey := key })
      = Except.map specNames
          (buildHeaderOverrideSpec { HeadersOverride := raw, ApiKey := key' }) := by
  cases raw with
  | none => rfl
  | some m =>
    cases m with
    | nil => rfl
    | cons x xs =>
      by_cases hstruct : isStructuredHeaderOverride (some (x :: xs)) = true
      · rw [build_structured _ (x :: xs) rfl hstruct, build_structured _ (x :: xs) rfl hstruct]
        rcases except_map_cases _ _ _ (parseHeaderOverrideMap_names
            { HeadersOverride := some (x :: xs), ApiKey := key }
            { HeadersOverride := some (x :: xs), ApiKey := key' }
            (mapIndex (x :: xs) "override")) with
          ⟨e, h1, h2⟩ | ⟨a, a', h1, h2, ha⟩
        · rw [h1, h2]
        · rw [h1, h2]
          rcases except_map_cases _ _ _ (parseHeaderOverrideMap_names
              { HeadersOverride := some (x :: xs), ApiKey := key }
              { HeadersOverride := some (x :: xs), ApiKey := key' }
              (mapIndex (x :: xs) "fill")) with
            ⟨e, h3, h4⟩ | ⟨b, b', h3, h4, hb⟩
          · rw [h3, h4]
          · rw [h3, h4]
            cases parseHeaderOverrideRemoveList (mapIndex (x :: xs) "remove") with
            | error e => rfl
            | ok rm => simp only [Except.map, specNames, ha, hb]
      · have hlegacy : isStructuredHeaderOverride (some (x :: xs)) = false := by
          simpa using hstruct
        rw [build_legacy _ (x :: xs) rfl (by simp) hlegacy,
          build_legacy _ (x :: xs) rfl (by simp) hlegacy]
        rcases except_map_cases _ _ _ (parseHeaderOverrideMap_names
            { HeadersOverride := some (x :: xs), ApiKey := key }
            { HeadersOverride := some (x :: xs), ApiKey := key' }
            (GoAny.mapAny (x :: xs))) with
          ⟨e, h1, h2⟩ | ⟨a, a', h1, h2, ha⟩
        · rw [h1, h2]
        · rw [h1, h2]
          simp only [Except.map, specNames, ha]


theorem replaceHeaderVariables_of_no_token (value : String) (info : RelayInfo)
    (h : Contains value apiKeyToken = false) : replaceHeaderVariables value info = value := by
  simp [replaceHeaderVariables, h]

theorem parseAnyEntries_no_token (info info' : RelayInfo) (m : List (String × GoAny))
    (result : List (String × String))
    (h : ∀ v ∈ stringValues (GoAny.mapAny m), Contains v apiKeyToken = false) :
    parseAnyEntries info m result = parseAnyEntries info' m result := by
  induction m generalizing result with
  | nil => rfl
  | cons x xs ih =>
    obtain ⟨k, v⟩ := x
    cases v with
    | str s =>
      have hs : Contains s apiKeyToken = false := h s (by simp [stringValues])
      simp only [parseAnyEntries, replaceHeaderVariables_of_no_token s _ hs]
      apply ih
      intro v hv
      apply h v
      simp only [stringValues, List.filterMap_cons] at hv ⊢
      exact List.mem_cons_of_mem _ hv
    | _ => rfl

theorem parseStrEntries_no_token (info info' : RelayInfo) (m result : List (String × String))
    (h : ∀ v ∈ stringValues (GoAny.mapStr m), Contains v apiKeyToken = false) :
    parseStrEntries info m result = parseStrEntries info' m result := by
  induction m generalizing result with
  | nil => rfl
  | cons x xs ih =>
    have hs : Contains x.2 apiKeyToken = false := h x.2 (by simp [stringValues])
    simp only [parseStrEntries, replaceHeaderVariables_of_no_token x.2 _ hs]
    apply ih
    intro v hv
    apply h v
    simp only [stringValues, List.map_cons] at hv ⊢
    exact List.mem_cons_of_mem _ hv

theorem parseHeaderOverrideMap_no_token (info info' : RelayInfo) (value : GoAny)
    (h : ∀ v ∈ stringValues value, Contains v apiKeyToken = false) :
    parseHeaderOverrideMap value info = parseHeaderOverrideMap value info' := by
  cases value with
  | mapAny m => exact parseAnyEntries_no_token info info' m [] h
  | mapStr m => simp only [parseHeaderOverrideMap, parseStrEntries_no_token info info' m [] h]
  | _ => rfl

/-- Without the token in the parsed string values, two API keys build the same
result. -/
theorem build_no_token (raw : Option (List (String × GoAny))) (key key' : String)
    (h : ∀ v ∈ parsedStringValues raw, Contains v apiKeyToken = false) :
    buildHeaderOverrideSpec { HeadersOverride := raw, ApiKey := key }
      = buildHeaderOverrideSpec { HeadersOverride := raw, ApiKey := key' } := by
  cases raw with
  | none => rfl
  | some m =>
    cases m with
    | nil => rfl
    | cons x xs =>
      by_cases hstruct : isStructuredHeaderOverride (some (x :: xs)) = true
      · simp only [parsedStringValues, hstruct, if_true, List.mem_append] at h
        rw [build_structured _ (x :: xs) rfl hstruct, build_structured _ (x :: xs) rfl hstruct,
          parseHeaderOverrideMap_no_token _ { HeadersOverride := some (x :: xs), ApiKey := key' }
            (mapIndex (x :: xs) "override") (fun v hv => h v (Or.inl hv)),
          parseHeaderOverrideMap_no_token _ { HeadersOverride := some (x :: xs), ApiKey := key' }
            (mapIndex (x :: xs) "fill") (fun v hv => h v (Or.inr hv))]
      · have hlegacy : isStructuredHeaderOverride (some (x :: xs)) = false := by
          simpa using hstruct
        simp only [parsedStringValues, hlegacy] at h
        rw [build_legacy _ (x :: xs) rfl (by simp) hlegacy,
          build_legacy _ (x :: xs) rfl (by simp) hlegacy,
          parseHeaderOverrideMap_no_token _ { HeadersOverride := some (x :: xs), ApiKey := key' }
            (GoAny.mapAny (x :: xs)) (fun v hv => h v hv)]

/-- C20: the API key reaches the spec only through the token. For every raw
config and any two API keys, `buildHeaderOverrideSpec` fails for one key exactly
when it fails for the other, with the same error; when no string value of the
parsed sections contains the literal `{api_key}`, the two results are equal; and
when both succeed, the header names of `Override` and `Fill` and the `Remove`
entries are the same for both keys, so no name is ever substituted. -/
theorem api_key_only_through_token (raw : Option (List (String × GoAny)))
    (key key' : String) :
    (∀ err,
      buildHeaderOverrideSpec { HeadersOverride := raw, ApiKey := key } = Except.error err ↔
      buildHeaderOverrideSpec { HeadersOverride := raw, ApiKey := key' } = Except.error err) ∧
    ((∀ v ∈ parsedStringValues raw, Contains v apiKeyToken = false) →
      buildHeaderOverrideSpec { HeadersOverride := raw, ApiKey := key }
        = buildHeaderOverrideSpec { HeadersOverride := raw, ApiKey := key' }) ∧
    (∀ spec spec',
      buildHeaderOverrideSpec { HeadersOverride := raw, ApiKey := key } = Except.ok spec →
      buildHeaderOverrideSpec { HeadersOverride := raw, ApiKey := key' } = Except.ok spec' →
      spec.Override.map Prod.fst = spec'.Override.map Prod.fst ∧
      spec.Fill.map Prod.fst = spec'.Fill.map Prod.fst ∧
      spec.Remove = spec'.Remove) := by
  refine ⟨?_, build_no_token raw key key', ?_⟩
  · intro err
    rcases except_map_cases _ _ _ (build_names raw key key') with
      ⟨e, h1, h2⟩ | ⟨a, a', h1, h2, _⟩
    · rw [h1, h2]
    · rw [h1, h2]
      constructor <;> intro h <;> cases h
  · intro spec spec' hs hs'
    rcases except_map_cases _ _ _ (build_names raw key key') with
      ⟨e, h1, _⟩ | ⟨a, a', h1, h2, hn⟩
    · rw [h1] at hs; cases hs
    · rw [h1] at hs
      rw [h2] at hs'
      cases hs
      cases hs'
      simp only [specNames, Prod.mk.injEq] at hn
      exact hn

/-- C20 at a concrete input: a header name and a `Remove` entry that contain
`{api_key}` are kept as they are, and with no token in a value the API keys
`"sk-1"` and `"sk-2"` build the same spec. -/
theorem api_key_only_through_token_witness :
    buildHeaderOverrideSpec
        { HeadersOverride := some [("override", GoAny.mapAny [("X-\x7bapi_key\x7d", GoAny.str "v")]),
            ("remove", GoAny.listAny [GoAny.str "\x7bapi_key\x7d"])],
          ApiKey := "sk-1" }
      = buildHeaderOverrideSpec
        { HeadersOverride := some [("override", GoAny.mapAny [("X-\x7bapi_key\x7d", GoAny.str "v")]),
            ("remove", GoAny.listAny [GoAny.str "\x7bapi_key\x7d"])],
          ApiKey := "sk-2" } ∧
    buildHeaderOverrideSpec
        { HeadersOverride := some [("override", GoAny.mapAny [("X-\x7bapi_key\x7d", GoAny.str "v")]),
            ("remove", GoAny.listAny [GoAny.str "\x7bapi_key\x7d"])],
          ApiKey := "sk-1" }
      = Except.ok { Override := [("X-\x7bapi_key\x7d", "v")], Fill := [],
                    Remove := ["\x7bapi_key\x7d"] } :=
  ⟨(api_key_only_through_token
      (some [("override", GoAny.mapAny [("X-\x7bapi_key\x7d", GoAny.str "v")]),
        ("remove", GoAny.listAny [GoAny.str "\x7bapi_key\x7d"])]) "sk-1" "sk-2").2.1
      (by decide),
   by decide⟩


end HeaderOverride
